import Mathlib

/-!
# Verification of the `kv` LSM storage engine

A shallow embedding of the storage engine in `src/memtable.rs` and
`src/wal.rs`: the memtable (a hash map from keys to pending entries),
the write-ahead log with CRC-32 framed records, the SST files, the
manifest and its in-memory cache, the negative cache, flushing, and the
k-way merge compactor.

Rust `HashMap`s are modelled as association lists with distinct keys
(insertion replaces in place), `HashSet`s as lists up to permutation,
the file system as an association list from paths to parsed SST
contents, and `BinaryHeap` as a list from which `pop` removes the
greatest element under the source's `Ord`.  Machine integers (`u32`,
`usize`) are modelled as `Nat`; the engine performs no wrapping
arithmetic on them.  Rust string comparison is byte-lexicographic on
UTF-8, which coincides with lexicographic comparison of unicode scalar
values, so keys are compared by their character lists.
-/

/-! ## Keys, values and SST entries (`src/memtable.rs`) -/

abbrev Key := String
abbrev Value := Nat

/-- `SstEntry` from `src/memtable.rs`: either `Put { key, value }` or
`Delete { key, deleted: true }`. -/
inductive SstEntry where
  | put (key : Key) (value : Value)
  | delete (key : Key)
deriving DecidableEq

/-- `SstEntry::key`. -/
def SstEntry.key : SstEntry → Key
  | .put k _ => k
  | .delete k => k

/-- `SstEntry::value`: `Some(value)` for a put, `None` for a tombstone. -/
def SstEntry.value : SstEntry → Option Value
  | .put _ v => some v
  | .delete _ => none

/-- `SstEntry::is_delete`. -/
def SstEntry.is_delete : SstEntry → Bool
  | .put _ _ => false
  | .delete _ => true

@[simp] theorem SstEntry.key_put (k : Key) (v : Value) : (SstEntry.put k v).key = k := rfl
@[simp] theorem SstEntry.key_delete (k : Key) : (SstEntry.delete k).key = k := rfl
@[simp] theorem SstEntry.value_put (k : Key) (v : Value) :
    (SstEntry.put k v).value = some v := rfl
@[simp] theorem SstEntry.value_delete (k : Key) : (SstEntry.delete k).value = none := rfl
@[simp] theorem SstEntry.is_delete_put (k : Key) (v : Value) :
    (SstEntry.put k v).is_delete = false := rfl
@[simp] theorem SstEntry.is_delete_delete (k : Key) :
    (SstEntry.delete k).is_delete = true := rfl

/-! ## String ordering

Rust compares `String`s lexicographically on their UTF-8 bytes; this is
the same order as lexicographic comparison of the character sequences.
We define the comparison on `List Char` so that it evaluates in the
kernel. -/

/-- Lexicographic strict order on character lists (Rust `str` ordering). -/
def charsLt : List Char → List Char → Bool
  | [], [] => false
  | [], _ :: _ => true
  | _ :: _, [] => false
  | a :: as, b :: bs =>
    if a.toNat < b.toNat then true
    else if b.toNat < a.toNat then false
    else charsLt as bs

/-- Rust `String: Ord` strict order. -/
def strLt (a b : String) : Bool := charsLt a.toList b.toList

theorem charsLt_irrefl (l : List Char) : charsLt l l = false := by
  induction l with
  | nil => rfl
  | cons a as ih => simp [charsLt, ih]

theorem charsLt_asymm {l₁ l₂ : List Char} (h : charsLt l₁ l₂ = true) :
    charsLt l₂ l₁ = false := by
  induction l₁ generalizing l₂ with
  | nil =>
    cases l₂ with
    | nil => simpa [charsLt] using h
    | cons b bs => simp [charsLt]
  | cons a as ih =>
    cases l₂ with
    | nil => simp [charsLt] at h
    | cons b bs =>
      simp only [charsLt] at h ⊢
      by_cases hab : a.toNat < b.toNat
      · simp only [hab, if_true] at h ⊢
        have : ¬ b.toNat < a.toNat := Nat.lt_asymm hab
        simp [this, Nat.ne_of_lt' hab, hab]
      · simp only [hab, if_false] at h
        by_cases hba : b.toNat < a.toNat
        · simp [hba] at h
        · simp only [hba, if_false] at h ⊢
          simp [hab, hba, ih h]

theorem charsLt_eq_of_not {l₁ l₂ : List Char} (h₁ : charsLt l₁ l₂ = false)
    (h₂ : charsLt l₂ l₁ = false) : l₁ = l₂ := by
  induction l₁ generalizing l₂ with
  | nil =>
    cases l₂ with
    | nil => rfl
    | cons b bs => simp [charsLt] at h₁
  | cons a as ih =>
    cases l₂ with
    | nil => simp [charsLt] at h₂
    | cons b bs =>
      simp only [charsLt] at h₁ h₂
      by_cases hab : a.toNat < b.toNat
      · simp [hab] at h₁
      · by_cases hba : b.toNat < a.toNat
        · simp [hba, hab] at h₂
        · simp only [hab, hba, if_false] at h₁ h₂
          have hn : a.toNat = b.toNat := Nat.le_antisymm (Nat.le_of_not_lt hba) (Nat.le_of_not_lt hab)
          have : a = b := by
            cases a with
            | mk av ap =>
              cases b with
              | mk bv bp =>
                simp only [Char.toNat] at hn
                congr 1
                exact UInt32.toNat.inj hn
          subst this
          rw [ih h₁ h₂]

theorem charsLt_trans {l₁ l₂ l₃ : List Char} (h₁ : charsLt l₁ l₂ = true)
    (h₂ : charsLt l₂ l₃ = true) : charsLt l₁ l₃ = true := by
  induction l₁ generalizing l₂ l₃ with
  | nil =>
    cases l₃ with
    | nil =>
      cases l₂ with
      | nil => simp [charsLt] at h₁
      | cons b bs => simp [charsLt] at h₂
    | cons c cs => simp [charsLt]
  | cons a as ih =>
    cases l₂ with
    | nil => simp [charsLt] at h₁
    | cons b bs =>
      cases l₃ with
      | nil => simp [charsLt] at h₂
      | cons c cs =>
        simp only [charsLt] at h₁ h₂ ⊢
        by_cases hab : a.toNat < b.toNat
        · by_cases hbc : b.toNat < c.toNat
          · simp [Nat.lt_trans hab hbc]
          · by_cases hcb : c.toNat < b.toNat
            · simp [hbc, hcb] at h₂
            · have : b.toNat = c.toNat :=
                Nat.le_antisymm (Nat.le_of_not_lt hcb) (Nat.le_of_not_lt hbc)
              simp [this ▸ hab]
        · by_cases hba : b.toNat < a.toNat
          · simp [hab, hba] at h₁
          · have heq : a.toNat = b.toNat :=
              Nat.le_antisymm (Nat.le_of_not_lt hba) (Nat.le_of_not_lt hab)
            simp only [hab, hba, if_false] at h₁
            by_cases hbc : b.toNat < c.toNat
            · simp [heq ▸ hbc]
            · by_cases hcb : c.toNat < b.toNat
              · simp [hbc, hcb] at h₂
              · simp only [hbc, hcb, if_false] at h₂
                have h1 : ¬ a.toNat < c.toNat := by omega
                have h2 : ¬ c.toNat < a.toNat := by omega
                simp [h1, h2, ih h₁ h₂]

theorem strLt_irrefl (a : String) : strLt a a = false := charsLt_irrefl _

theorem strLt_asymm {a b : String} (h : strLt a b = true) : strLt b a = false :=
  charsLt_asymm h

theorem strLt_trans {a b c : String} (h₁ : strLt a b = true) (h₂ : strLt b c = true) :
    strLt a c = true := charsLt_trans h₁ h₂

theorem strLt_eq_of_not {a b : String} (h₁ : strLt a b = false) (h₂ : strLt b a = false) :
    a = b := by
  cases a with
  | mk da =>
    cases b with
    | mk db =>
      have : da = db := charsLt_eq_of_not h₁ h₂
      rw [this]

theorem strLt_ne {a b : String} (h : strLt a b = true) : a ≠ b := by
  intro he
  subst he
  simp [strLt_irrefl] at h

/-! ## Association-list models of `HashMap` -/

/-- `HashMap::insert`: replace the binding in place, or append a new one. -/
def alistInsert {α : Type} (m : List (String × α)) (k : String) (v : α) :
    List (String × α) :=
  match m with
  | [] => [(k, v)]
  | (k', v') :: rest =>
    if k' = k then (k, v) :: rest else (k', v') :: alistInsert rest k v

/-- `HashMap::get`. -/
def alistLookup {α : Type} (m : List (String × α)) (k : String) : Option α :=
  match m with
  | [] => none
  | (k', v') :: rest => if k' = k then some v' else alistLookup rest k

/-- `fs::remove_file`: drop the binding for a path. -/
def alistErase {α : Type} (m : List (String × α)) (k : String) : List (String × α) :=
  match m with
  | [] => []
  | (k', v') :: rest => if k' = k then rest else (k', v') :: alistErase rest k

@[simp] theorem alistLookup_nil {α : Type} (k : String) :
    alistLookup ([] : List (String × α)) k = none := rfl

theorem alistLookup_insert_self {α : Type} (m : List (String × α)) (k : String) (v : α) :
    alistLookup (alistInsert m k v) k = some v := by
  induction m with
  | nil => simp [alistInsert, alistLookup]
  | cons p rest ih =>
    obtain ⟨k', v'⟩ := p
    by_cases h : k' = k
    · simp [alistInsert, alistLookup, h]
    · simp [alistInsert, alistLookup, h, ih]

theorem alistLookup_insert_other {α : Type} (m : List (String × α)) (k q : String) (v : α)
    (h : q ≠ k) : alistLookup (alistInsert m k v) q = alistLookup m q := by
  have hkq : ¬ k = q := fun hh => h hh.symm
  induction m with
  | nil => simp [alistInsert, alistLookup, hkq]
  | cons p rest ih =>
    obtain ⟨k', v'⟩ := p
    by_cases hk : k' = k
    · subst hk
      simp [alistInsert, alistLookup, hkq]
    · by_cases hq : k' = q
      · subst hq
        simp [alistInsert, alistLookup, hk]
      · simp [alistInsert, alistLookup, hk, hq, ih]

theorem alistLookup_erase_other {α : Type} (m : List (String × α)) (k q : String)
    (h : q ≠ k) : alistLookup (alistErase m k) q = alistLookup m q := by
  have hkq : ¬ k = q := fun hh => h hh.symm
  induction m with
  | nil => simp [alistErase]
  | cons p rest ih =>
    obtain ⟨k', v'⟩ := p
    by_cases hk : k' = k
    · subst hk
      simp [alistErase, alistLookup, hkq]
    · simp [alistErase, alistLookup, hk, ih]

theorem alistInsert_mem_keys {α : Type} {m : List (String × α)} {k q : String} {v : α} :
    q ∈ (alistInsert m k v).map Prod.fst ↔ q = k ∨ q ∈ m.map Prod.fst := by
  induction m with
  | nil => simp [alistInsert]
  | cons p rest ih =>
    obtain ⟨k', v'⟩ := p
    by_cases hk : k' = k
    · subst hk
      simp [alistInsert]
    · simp only [alistInsert, hk, if_false, List.map_cons, List.mem_cons, ih]
      tauto

theorem alistInsert_keys_nodup {α : Type} (m : List (String × α)) (k : String) (v : α)
    (h : (m.map Prod.fst).Nodup) :
    ((alistInsert m k v).map Prod.fst).Nodup := by
  induction m with
  | nil => simp [alistInsert]
  | cons p rest ih =>
    obtain ⟨k', v'⟩ := p
    simp only [List.map_cons, List.nodup_cons] at h
    by_cases hk : k' = k
    · subst hk
      simpa [alistInsert] using h
    · simp only [alistInsert, hk, if_false, List.map_cons, List.nodup_cons]
      refine ⟨fun hmem' => ?_, ih h.2⟩
      rcases alistInsert_mem_keys.mp hmem' with h' | h'
      · exact hk h'
      · exact h.1 h'

theorem alistLookup_eq_none {α : Type} (m : List (String × α)) (k : String)
    (h : k ∉ m.map Prod.fst) : alistLookup m k = none := by
  induction m with
  | nil => rfl
  | cons p rest ih =>
    obtain ⟨k', v'⟩ := p
    simp only [List.map_cons, List.mem_cons] at h
    push_neg at h
    have : ¬ k' = k := fun hh => h.1 hh.symm
    simp [alistLookup, this, ih h.2]

theorem alistLookup_isSome_mem {α : Type} {m : List (String × α)} {k : String} {v : α}
    (h : alistLookup m k = some v) : (k, v) ∈ m := by
  induction m with
  | nil => simp [alistLookup] at h
  | cons p rest ih =>
    obtain ⟨k', v'⟩ := p
    by_cases hk : k' = k
    · subst hk
      simp only [alistLookup, if_true, eq_self_iff_true, Option.some.injEq] at h
      simp [← h]
    · simp only [alistLookup, hk, if_false] at h
      simp [ih h]

/-! ## SST paths and `MemTable::next_sst_id` (`src/memtable.rs`)

`next_sst_id` takes the *last* line of `manifest_cache`, strips the
`data/sst/sst-` prefix and the `.json` suffix (Rust's
`trim_start_matches`/`trim_end_matches` strip repeatedly), parses the
remainder as a `usize` and adds 1, defaulting to `0 + 1` when the cache
is empty or the parse fails. -/

/-- Big-endian decimal digits of `n`, as rendered by Rust's `format!`. -/
def natDigits (n : Nat) : List Char :=
  if n < 10 then [Char.ofNat (48 + n)]
  else natDigits (n / 10) ++ [Char.ofNat (48 + n % 10)]
termination_by n
decreasing_by
  rename_i h
  exact Nat.div_lt_self (by omega) (by omega)

/-- Decimal rendering of `n` (Rust `usize`/`u32` `Display`). -/
def natToString (n : Nat) : String := ⟨natDigits n⟩

/-- `format!("data/sst/sst-{id}.json")` (`MemTable::sst_path`). -/
def sstPath (id : Nat) : String := "data/sst/sst-" ++ natToString id ++ ".json"

/-- One attempt to strip `pat` from the front of `s`. -/
def stripOnce : List Char → List Char → Option (List Char)
  | [], s => some s
  | _ :: _, [] => none
  | p :: ps, c :: cs => if p = c then stripOnce ps cs else none

theorem stripOnce_length {pat s r : List Char} (h : stripOnce pat s = some r) :
    pat.length + r.length = s.length := by
  induction pat generalizing s with
  | nil =>
    simp only [stripOnce, Option.some.injEq] at h
    simp [h]
  | cons p ps ih =>
    cases s with
    | nil => simp [stripOnce] at h
    | cons c cs =>
      simp only [stripOnce] at h
      by_cases hp : p = c
      · simp only [hp, if_true, eq_self_iff_true] at h
        have := ih h
        simp only [List.length_cons]
        omega
      · simp [hp] at h

/-- Rust `str::trim_start_matches`: repeatedly strip a leading copy of `pat`. -/
def trimStartChars (pat s : List Char) : List Char :=
  if hp : pat.isEmpty then s
  else
    match h : stripOnce pat s with
    | some r => trimStartChars pat r
    | none => s
termination_by s.length
decreasing_by
  have hl := stripOnce_length h
  cases pat with
  | nil => simp at hp
  | cons p ps => simp only [List.length_cons] at hl; omega

/-- Rust `str::trim_end_matches`: repeatedly strip a trailing copy of `pat`. -/
def trimEndChars (pat s : List Char) : List Char :=
  (trimStartChars pat.reverse s.reverse).reverse

/-- The digit fold performed by Rust's `usize::from_str` (no overflow is
modelled: ids stay far below `usize::MAX`). -/
def parseDigits (cs : List Char) : Option Nat :=
  if cs.isEmpty then none
  else if cs.all Char.isDigit then
    some (cs.foldl (fun n c => n * 10 + (c.toNat - 48)) 0)
  else none

/-- Rust `str::parse::<usize>`: optional leading `+`, then decimal digits. -/
def parseUsize (s : String) : Option Nat :=
  match s.toList with
  | '+' :: rest => parseDigits rest
  | cs => parseDigits cs

/-- The parse inside `MemTable::next_sst_id`: strip path prefix and
`.json` suffix, then parse the id. -/
def parseSstId (line : String) : Option Nat :=
  parseUsize ⟨trimEndChars ".json".toList (trimStartChars "data/sst/sst-".toList line.toList)⟩

/-- `MemTable::next_sst_id`: parse the id of the *last* cache line and
add one; `0 + 1` if the cache is empty or the last line does not parse. -/
def nextSstId (manifestCache : List String) : Nat :=
  ((manifestCache.getLast?.bind parseSstId).getD 0) + 1

theorem natDigits_ne_nil (n : Nat) : natDigits n ≠ [] := by
  rw [natDigits]
  by_cases h : n < 10 <;> simp [h]

theorem digitChar_isDigit {d : Nat} (h : d < 10) : (Char.ofNat (48 + d)).isDigit = true := by
  interval_cases d <;> decide

theorem digitChar_toNat {d : Nat} (h : d < 10) : (Char.ofNat (48 + d)).toNat = 48 + d := by
  interval_cases d <;> decide

theorem natDigits_digits (n : Nat) : ∀ c ∈ natDigits n, c.isDigit = true := by
  induction n using Nat.strong_induction_on with
  | _ n ih =>
    rw [natDigits]
    by_cases h : n < 10
    · simp only [h, if_true]
      intro c hc
      simp only [List.mem_singleton] at hc
      subst hc
      exact digitChar_isDigit h
    · simp only [h, if_false]
      intro c hc
      rcases List.mem_append.mp hc with hc | hc
      · exact ih (n / 10) (Nat.div_lt_self (by omega) (by omega)) c hc
      · simp only [List.mem_singleton] at hc
        subst hc
        exact digitChar_isDigit (Nat.mod_lt _ (by omega))

theorem natDigits_foldl (n : Nat) (a : Nat) :
    (natDigits n).foldl (fun m c => m * 10 + (c.toNat - 48)) a
      = a * 10 ^ (natDigits n).length + n := by
  induction n using Nat.strong_induction_on generalizing a with
  | _ n ih =>
    rw [natDigits]
    by_cases h : n < 10
    · simp only [h, if_true, List.foldl_cons, List.foldl_nil, List.length_singleton, pow_one]
      rw [digitChar_toNat h]
      omega
    · simp only [h, if_false, List.foldl_append, List.length_append, List.length_cons,
        List.length_nil]
      rw [ih (n / 10) (Nat.div_lt_self (by omega) (by omega)) a]
      rw [List.foldl_cons, List.foldl_nil, digitChar_toNat (Nat.mod_lt _ (by omega))]
      generalize (natDigits (n / 10)).length = L
      have h48 : 48 + n % 10 - 48 = n % 10 := by omega
      have hdm : n / 10 * 10 + n % 10 = n := by omega
      calc (a * 10 ^ L + n / 10) * 10 + (48 + n % 10 - 48)
          = a * 10 ^ (L + (0 + 1)) + (n / 10 * 10 + n % 10) := by
            rw [h48]; ring
        _ = a * 10 ^ (L + (0 + 1)) + n := by rw [hdm]

theorem strToList_append (a b : String) : (a ++ b).toList = a.toList ++ b.toList := by
  cases a; cases b; rfl

theorem sstPath_toList (id : Nat) :
    (sstPath id).toList = "data/sst/sst-".toList ++ (natDigits id ++ ".json".toList) := by
  rw [sstPath, strToList_append, strToList_append]
  rfl

theorem stripOnce_append (pat r : List Char) : stripOnce pat (pat ++ r) = some r := by
  induction pat with
  | nil => rfl
  | cons p ps ih => simp [stripOnce, ih]

theorem stripOnce_head_ne {p c : Char} {ps cs : List Char} (h : ¬ p = c) :
    stripOnce (p :: ps) (c :: cs) = none := by
  simp [stripOnce, h]

theorem trimStartChars_of_none {pat s : List Char} (hp : pat.isEmpty = false)
    (h : stripOnce pat s = none) : trimStartChars pat s = s := by
  rw [trimStartChars, dif_neg (by simp [hp])]
  split
  · rename_i r heq
    rw [h] at heq
    cases heq
  · rfl

theorem trimStartChars_append {pat r : List Char} (hp : pat.isEmpty = false)
    (h : stripOnce pat r = none) : trimStartChars pat (pat ++ r) = r := by
  rw [trimStartChars, dif_neg (by simp [hp])]
  split
  · rename_i r₁ heq
    rw [stripOnce_append] at heq
    injection heq with h₁
    subst h₁
    exact trimStartChars_of_none hp h
  · rename_i heq
    rw [stripOnce_append] at heq
    cases heq

/-- A digit character is neither `d`, `n` nor `+`. -/
theorem isDigit_ne {c d : Char} (hc : c.isDigit = true) (hd : d.isDigit = false) :
    ¬ d = c := by
  intro h
  rw [h, hc] at hd
  simp at hd

theorem parseDigits_natDigits (n : Nat) : parseDigits (natDigits n) = some n := by
  have hne := natDigits_ne_nil n
  have hall : (natDigits n).all Char.isDigit = true := by
    rw [List.all_eq_true]
    exact natDigits_digits n
  have hfold := natDigits_foldl n 0
  simp only [parseDigits, List.isEmpty_iff, hne, if_false, hall, if_true]
  rw [hfold]
  simp

theorem parseUsize_of_head_digit {s : String} {c : Char} {cs : List Char}
    (hT : s.toList = c :: cs) (hplus : ¬ c = '+') : parseUsize s = parseDigits (c :: cs) := by
  rw [parseUsize, hT]
  split
  · rename_i rest heq
    injection heq with h₁ h₂
    exact absurd h₁ hplus
  · rfl

theorem parseUsize_mk_natDigits (n : Nat) : parseUsize ⟨natDigits n⟩ = some n := by
  obtain ⟨c, cs, hD⟩ : ∃ c cs, natDigits n = c :: cs := by
    cases hD : natDigits n with
    | nil => exact absurd hD (natDigits_ne_nil n)
    | cons c cs => exact ⟨c, cs, rfl⟩
  have hc : c.isDigit = true := by
    apply natDigits_digits n
    rw [hD]
    simp
  have hplus : ¬ c = '+' := by
    intro h
    rw [h] at hc
    simp at hc
  have hT : (String.mk (natDigits n)).toList = c :: cs := hD
  rw [parseUsize_of_head_digit hT hplus, ← hD, parseDigits_natDigits]

theorem parseSstId_sstPath (id : Nat) : parseSstId (sstPath id) = some id := by
  have hdig := natDigits_digits id
  have hne := natDigits_ne_nil id
  rw [parseSstId, sstPath_toList]
  have hp1 : ("data/sst/sst-".toList).isEmpty = false := by decide
  have hstrip1 : stripOnce "data/sst/sst-".toList (natDigits id ++ ".json".toList) = none := by
    cases hD : natDigits id with
    | nil => exact absurd hD hne
    | cons c cs =>
      have hc : c.isDigit = true := by
        apply hdig; rw [hD]; simp
      exact stripOnce_head_ne (isDigit_ne hc (by decide))
  rw [trimStartChars_append hp1 hstrip1]
  have hp2 : (".json".toList.reverse).isEmpty = false := by decide
  rw [trimEndChars, List.reverse_append]
  have hstrip2 : stripOnce ".json".toList.reverse (natDigits id).reverse = none := by
    cases hD : (natDigits id).reverse with
    | nil =>
      exfalso
      apply hne
      have := congrArg List.reverse hD
      simpa using this
    | cons c cs =>
      have hc : c.isDigit = true := by
        apply hdig
        have : c ∈ (natDigits id).reverse := by rw [hD]; simp
        simpa using this
      exact stripOnce_head_ne (isDigit_ne hc (by decide))
  rw [trimStartChars_append hp2 hstrip2, List.reverse_reverse]
  exact parseUsize_mk_natDigits id

theorem sstPath_injective {a b : Nat} (h : sstPath a = sstPath b) : a = b := by
  have ha := parseSstId_sstPath a
  have hb := parseSstId_sstPath b
  rw [h] at ha
  rw [ha] at hb
  exact Option.some.inj hb

theorem chain'_lt_le_getLastD {ids : List Nat} (h : List.Chain' (· < ·) ids) :
    ∀ i ∈ ids, i ≤ ids.getLastD 0 := by
  induction ids with
  | nil => simp
  | cons a rest ih =>
    intro i hi
    cases rest with
    | nil =>
      simp only [List.mem_singleton] at hi
      simp [hi, List.getLastD]
    | cons b bs =>
      have hch := List.chain'_cons.mp h
      have hgl : (a :: b :: bs).getLastD 0 = (b :: bs).getLastD 0 := by
        simp [List.getLastD]
      rcases List.mem_cons.mp hi with hi | hi
      · rw [hi, hgl]
        calc a ≤ b := Nat.le_of_lt hch.1
          _ ≤ (b :: bs).getLastD 0 := ih hch.2 b (by simp)
      · rw [hgl]
        exact ih hch.2 i hi

theorem nextSstId_map_sstPath (ids : List Nat) (hne : ids ≠ []) :
    nextSstId (ids.map sstPath) = ids.getLastD 0 + 1 := by
  rw [nextSstId, List.getLast?_map]
  cases hL : ids.getLast? with
  | none => exact absurd (List.getLast?_eq_none_iff.mp hL) hne
  | some m =>
    simp [parseSstId_sstPath, List.getLastD_eq_getLast?, hL]

/-! ## Write-ahead log (`src/wal.rs`)

A WAL line is `{"hash": <u32>, "entry": {"op": ..., "key": ..., ...}}`.
`Log::new` computes `hash` as the CRC-32 (`crc32fast::hash`) of the
`serde_json` serialization of the entry; `Log::validate` re-serializes
the parsed entry, recomputes the CRC and compares.  We model the byte
string and checksum computation exactly; a line of the on-disk log is
abstracted by its `serde_json` parse outcome (`blank` / unparseable /
parsed record), since the engine never inspects a line except through
that parse. -/

/-- WAL `Entry` from `src/wal.rs` (`#[serde(tag = "op", rename_all = "lowercase")]`). -/
inductive Entry where
  | put (key : Key) (value : Value)
  | delete (key : Key)
deriving DecidableEq

/-- Lowercase hex digit. -/
def hexDigit (n : Nat) : Char := if n < 10 then Char.ofNat (48 + n) else Char.ofNat (87 + n)

/-- `serde_json`'s escaping of one character inside a string literal. -/
def jsonEscapeChar (c : Char) : List Char :=
  if c = '"' then ['\\', '"']
  else if c = '\\' then ['\\', '\\']
  else if c = '\x08' then ['\\', 'b']
  else if c = '\t' then ['\\', 't']
  else if c = '\n' then ['\\', 'n']
  else if c = '\x0c' then ['\\', 'f']
  else if c = '\r' then ['\\', 'r']
  else if c.toNat < 32 then ['\\', 'u', '0', '0', hexDigit (c.toNat / 16), hexDigit (c.toNat % 16)]
  else [c]

/-- `serde_json` string literal: quoted, escaped. -/
def jsonStr (s : String) : List Char :=
  '"' :: (s.toList.map jsonEscapeChar).join ++ ['"']

/-- `serde_json::to_string` of a WAL entry: the tag field `op` first,
then the struct fields in declaration order, no whitespace. -/
def serializeEntry : Entry → List Char
  | .put k v =>
    "\x7b\"op\":\"put\",\"key\":".toList ++ jsonStr k
      ++ ",\"value\":".toList ++ natDigits v ++ ['\x7d']
  | .delete k =>
    "\x7b\"op\":\"delete\",\"key\":".toList ++ jsonStr k ++ ['\x7d']

/-- UTF-8 encoding of one character. -/
def utf8Char (c : Char) : List Nat :=
  let n := c.toNat
  if n < 128 then [n]
  else if n < 2048 then [192 + n / 64, 128 + n % 64]
  else if n < 65536 then [224 + n / 4096, 128 + n / 64 % 64, 128 + n % 64]
  else [240 + n / 262144, 128 + n / 4096 % 64, 128 + n / 64 % 64, 128 + n % 64]

/-- `str::as_bytes`: UTF-8 bytes of a character list. -/
def utf8Bytes (cs : List Char) : List Nat := (cs.map utf8Char).join

/-- One bit-step of the reflected CRC-32 with polynomial `0xEDB88320`. -/
def crc32Round (c : Nat) : Nat := if c % 2 = 1 then Nat.xor (c / 2) 0xEDB88320 else c / 2

/-- Fold one byte into the CRC-32 state. -/
def crc32Byte (crc b : Nat) : Nat :=
  (List.range 8).foldl (fun c _ => crc32Round c) (Nat.xor crc b)

/-- `crc32fast::hash`: CRC-32/ISO-HDLC of a byte sequence. -/
def crc32 (bytes : List Nat) : Nat := Nat.xor (bytes.foldl crc32Byte 0xFFFFFFFF) 0xFFFFFFFF

set_option maxRecDepth 4000 in
/-- Sanity check: the standard CRC-32 check value over `"123456789"`. -/
theorem crc32_check_value : crc32 (utf8Bytes "123456789".toList) = 0xCBF43926 := by decide

/-- The hash stored by `Log::new` and recomputed by `Log::validate`:
CRC-32 of the canonical serialization of the entry. -/
def walHash (e : Entry) : Nat := crc32 (utf8Bytes (serializeEntry e))

/-- One line of the on-disk WAL, abstracted by its parse outcome:
a `blank` line (empty after trimming), a `bad` line (fails to parse as a
framed `Log` record), or a parsed record `{"hash": h, "entry": e}`. -/
inductive WalLine where
  | blank
  | bad
  | record (hash : Nat) (entry : Entry)

/-- `Log::validate` on a parsed record: recompute the CRC-32 over the
canonical serialization of the entry and compare with the stored hash. -/
def logValidate (h : Nat) (e : Entry) : Bool := walHash e == h

/-- `Wal::existing_entries`: read the log line by line, skip blank
lines, stop at the first parse failure or checksum mismatch, and insert
every validated entry into the recovered map (last-wins per key). -/
def existingEntries : List WalLine → List (Key × SstEntry) → List (Key × SstEntry)
  | [], m => m
  | .blank :: rest, m => existingEntries rest m
  | .bad :: _, m => m
  | .record h e :: rest, m =>
    if logValidate h e then
      match e with
      | .put k v => existingEntries rest (alistInsert m k (SstEntry.put k v))
      | .delete k => existingEntries rest (alistInsert m k (SstEntry.delete k))
    else m

/-- Whether replay may continue past this line, following the spec's
torn-tail rule: blank lines are skipped, a framed record must have a
matching checksum, anything else stops replay. -/
def lineOk : WalLine → Bool
  | .blank => true
  | .bad => false
  | .record h e => logValidate h e

/-- The entries of the longest validated prefix of the log (the records
of the lines before the first parse error or checksum mismatch). -/
def validEntries (lines : List WalLine) : List Entry :=
  (lines.takeWhile lineOk).filterMap fun l =>
    match l with
    | .record _ e => some e
    | _ => none

/-- Last-wins application of a sequence of replayed entries to a map. -/
def applyEntries (m : List (Key × SstEntry)) : List Entry → List (Key × SstEntry)
  | [] => m
  | .put k v :: rest => applyEntries (alistInsert m k (SstEntry.put k v)) rest
  | .delete k :: rest => applyEntries (alistInsert m k (SstEntry.delete k)) rest

theorem existingEntries_eq_applyEntries (lines : List WalLine) (m : List (Key × SstEntry)) :
    existingEntries lines m = applyEntries m (validEntries lines) := by
  induction lines generalizing m with
  | nil => rfl
  | cons l rest ih =>
    cases l with
    | blank =>
      have hv : validEntries (WalLine.blank :: rest) = validEntries rest := by
        simp [validEntries, List.takeWhile_cons, lineOk]
      rw [show existingEntries (WalLine.blank :: rest) m = existingEntries rest m from rfl, hv]
      exact ih m
    | bad =>
      have hv : validEntries (WalLine.bad :: rest) = [] := by
        simp [validEntries, List.takeWhile_cons, lineOk]
      rw [hv]
      rfl
    | record h e =>
      by_cases hok : logValidate h e = true
      · have hv : validEntries (WalLine.record h e :: rest) = e :: validEntries rest := by
          simp [validEntries, List.takeWhile_cons, lineOk, hok]
        rw [hv]
        cases e with
        | put k v =>
          rw [show existingEntries (WalLine.record h (Entry.put k v) :: rest) m
              = existingEntries rest (alistInsert m k (SstEntry.put k v)) by
            simp [existingEntries, hok]]
          exact ih _
        | delete k =>
          rw [show existingEntries (WalLine.record h (Entry.delete k) :: rest) m
              = existingEntries rest (alistInsert m k (SstEntry.delete k)) by
            simp [existingEntries, hok]]
          exact ih _
      · have hok' : logValidate h e = false := by simpa using hok
        have hv : validEntries (WalLine.record h e :: rest) = [] := by
          simp [validEntries, List.takeWhile_cons, lineOk, hok']
        rw [hv]
        simp [existingEntries, hok']
        rfl

/-! ## Engine constants (`src/memtable.rs`) -/

def FLUSH_THRESHOLD : Nat := 2000
def COMPACTION_THRESHOLD : Nat := 10000

/-! ## The k-way merge heap (`HeapItem` and its `Ord`)

`BinaryHeap::pop` removes a greatest element under `HeapItem`'s `Ord`:
keys compare *reversed* (so the smallest key pops first) and, on equal
keys, a larger `sst_file_index` (a younger SST) pops first. -/

structure HeapItem where
  key : Key
  sst_file_index : Nat
  sst_position_index : Nat
deriving DecidableEq

/-- Rust `Ord::cmp` for `String`, in `Ordering` form. -/
def strCmpOrd (a b : String) : Ordering :=
  if strLt a b then .lt else if strLt b a then .gt else .eq

/-- Rust `Ord::cmp` for `usize`, in `Ordering` form. -/
def natCmpOrd (a b : Nat) : Ordering :=
  if a < b then .lt else if b < a then .gt else .eq

/-- `impl Ord for HeapItem` (`src/memtable.rs`): compare keys reversed
(equal keys fall through to `sst_file_index` ascending), then break
remaining ties by `sst_position_index`. -/
def heapCmp (a b : HeapItem) : Ordering :=
  (match strCmpOrd a.key b.key with
   | .eq => natCmpOrd a.sst_file_index b.sst_file_index
   | o => o.swap).then (natCmpOrd a.sst_position_index b.sst_position_index)

/-- `BinaryHeap::pop`: remove a greatest element (together with the
remaining heap contents). -/
def popMax : List HeapItem → Option (HeapItem × List HeapItem)
  | [] => none
  | x :: xs =>
    match popMax xs with
    | none => some (x, [])
    | some (m, rest) =>
      if heapCmp x m = .lt then some (m, x :: rest) else some (x, m :: rest)

theorem popMax_eq_none {l : List HeapItem} (h : popMax l = none) : l = [] := by
  cases l with
  | nil => rfl
  | cons x xs =>
    rw [popMax] at h
    rcases hx : popMax xs with _ | ⟨m, rest⟩ <;> rw [hx] at h
    · simp at h
    · by_cases hc : heapCmp x m = .lt <;> simp [hc] at h

theorem popMax_length {l : List HeapItem} {m : HeapItem} {rest : List HeapItem}
    (h : popMax l = some (m, rest)) : rest.length + 1 = l.length := by
  induction l generalizing m rest with
  | nil => simp [popMax] at h
  | cons x xs ih =>
    rw [popMax] at h
    rcases hx : popMax xs with _ | ⟨m', rest'⟩ <;> rw [hx] at h
    · have hxs := popMax_eq_none hx
      subst hxs
      simp only [Option.some.injEq, Prod.mk.injEq] at h
      rw [← h.2]
      rfl
    · have hih := ih hx
      by_cases hc : heapCmp x m' = .lt <;>
        simp only [hc, if_true, if_false, Option.some.injEq, Prod.mk.injEq] at h <;>
        rw [← h.2] <;> simp only [List.length_cons] <;> omega

theorem popMax_perm {l : List HeapItem} {m : HeapItem} {rest : List HeapItem}
    (h : popMax l = some (m, rest)) : l.Perm (m :: rest) := by
  induction l generalizing m rest with
  | nil => simp [popMax] at h
  | cons x xs ih =>
    rw [popMax] at h
    rcases hx : popMax xs with _ | ⟨m', rest'⟩ <;> rw [hx] at h
    · have hxs := popMax_eq_none hx
      subst hxs
      simp only [Option.some.injEq, Prod.mk.injEq] at h
      rw [← h.1, ← h.2]
    · by_cases hc : heapCmp x m' = .lt <;> simp only [hc, if_true, if_false,
        Option.some.injEq, Prod.mk.injEq] at h
      · rw [← h.1, ← h.2]
        exact ((ih hx).cons x).trans (List.Perm.swap m' x rest')
      · rw [← h.1, ← h.2]
        exact (ih hx).cons x

/-- The inner `while heap.peek().key == key` drain loop of
`compact_sst`: pop while the top of the heap has the given key. -/
def drainEq (k : Key) (l : List HeapItem) : List HeapItem × List HeapItem :=
  match hpop : popMax l with
  | none => ([], l)
  | some (m, rest) =>
    if m.key = k then
      ((drainEq k rest).1.cons m, (drainEq k rest).2)
    else ([], l)
termination_by l.length
decreasing_by
  have := popMax_length hpop
  omega

theorem drainEq_perm (k : Key) (l : List HeapItem) :
    l.Perm ((drainEq k l).1 ++ (drainEq k l).2) := by
  have H : ∀ (n : Nat) (l : List HeapItem), l.length = n →
      l.Perm ((drainEq k l).1 ++ (drainEq k l).2) := by
    intro n
    induction n using Nat.strong_induction_on with
    | _ n ih =>
      intro l hl
      rw [drainEq]
      split
      · simp
      · rename_i m rest hpop
        by_cases hk : m.key = k
        · have hlen := popMax_length hpop
          have hperm := popMax_perm hpop
          have ihr := ih rest.length (by omega) rest rfl
          simp only [hk, if_true, List.cons_append, eq_self_iff_true]
          exact hperm.trans (ihr.cons m)
        · simp [hk]
  exact H l.length l rfl

/-- Indexing `lsm_tree[f][p]` in `compact_sst` (only ever used in
bounds; the default entry is never reached). -/
def entryAt (lsm : List (List SstEntry)) (f p : Nat) : SstEntry :=
  (lsm.getD f []).getD p (SstEntry.put "" 0)

/-- Step 6 of the merge: the successor of a popped item within its
source SST, if any. -/
def succItem (lsm : List (List SstEntry)) (it : HeapItem) : Option HeapItem :=
  match (lsm.getD it.sst_file_index []).get? (it.sst_position_index + 1) with
  | some e => some ⟨e.key, it.sst_file_index, it.sst_position_index + 1⟩
  | none => none

/-- Number of entries of an item's source SST from its position on. -/
def heapWeight (lsm : List (List SstEntry)) (it : HeapItem) : Nat :=
  (lsm.getD it.sst_file_index []).length - it.sst_position_index

def heapMeasure (lsm : List (List SstEntry)) (l : List HeapItem) : Nat :=
  (l.map (heapWeight lsm)).sum

theorem heapMeasure_perm (lsm : List (List SstEntry)) {l₁ l₂ : List HeapItem}
    (h : l₁.Perm l₂) : heapMeasure lsm l₁ = heapMeasure lsm l₂ :=
  (h.map _).sum_eq

theorem heapMeasure_append (lsm : List (List SstEntry)) (l₁ l₂ : List HeapItem) :
    heapMeasure lsm (l₁ ++ l₂) = heapMeasure lsm l₁ + heapMeasure lsm l₂ := by
  simp [heapMeasure]

theorem succItem_weight {lsm : List (List SstEntry)} {it nxt : HeapItem}
    (h : succItem lsm it = some nxt) : heapWeight lsm nxt + 1 = heapWeight lsm it := by
  rw [succItem] at h
  rcases hg : (lsm.getD it.sst_file_index []).get? (it.sst_position_index + 1) with _ | e <;>
    rw [hg] at h
  · simp at h
  · simp only [Option.some.injEq] at h
    obtain ⟨hlt, hv⟩ := List.get?_eq_some.mp hg
    rw [← h]
    simp only [heapWeight]
    omega

theorem heapMeasure_filterMap_succ (lsm : List (List SstEntry)) (dl : List HeapItem) :
    heapMeasure lsm (dl.filterMap (succItem lsm)) + (dl.filterMap (succItem lsm)).length
      ≤ heapMeasure lsm dl := by
  induction dl with
  | nil => simp [heapMeasure]
  | cons it dl ih =>
    rcases hs : succItem lsm it with _ | nxt
    · rw [List.filterMap_cons_none hs]
      have : heapMeasure lsm (it :: dl) = heapWeight lsm it + heapMeasure lsm dl := by
        simp [heapMeasure]
      omega
    · rw [List.filterMap_cons_some hs]
      have h1 : heapMeasure lsm (it :: dl) = heapWeight lsm it + heapMeasure lsm dl := by
        simp [heapMeasure]
      have h2 : heapMeasure lsm (nxt :: dl.filterMap (succItem lsm))
          = heapWeight lsm nxt + heapMeasure lsm (dl.filterMap (succItem lsm)) := by
        simp [heapMeasure]
      have h3 := succItem_weight hs
      simp only [List.length_cons]
      omega

/-- The output-buffer bookkeeping of one merge round (steps 5 and 7):
emit the winner when it is a `Put`, and close the buffer as one output
SST whenever it reaches `FLUSH_THRESHOLD` entries. -/
def compactAcc (lsm : List (List SstEntry)) (item : HeapItem) (cur : List SstEntry)
    (outs : List (List SstEntry)) : List SstEntry × List (List SstEntry) :=
  let newest := entryAt lsm item.sst_file_index item.sst_position_index
  if newest.is_delete then (cur, outs)
  else if FLUSH_THRESHOLD ≤ (cur ++ [newest]).length then ([], outs ++ [cur ++ [newest]])
  else (cur ++ [newest], outs)

/-- The `while let Some(item) = heap.pop()` loop of `compact_sst`:
pop the minimum-key item, drain all items sharing its key, keep the
entry from the popped item of the highest `sst_file_index` (the first
popped, `drained[0]`), drop it if it is a tombstone, then push each
drained item's successor; finally close any non-empty output buffer. -/
def compactLoop (lsm : List (List SstEntry)) (heap : List HeapItem)
    (cur : List SstEntry) (outs : List (List SstEntry)) : List (List SstEntry) :=
  match hpop : popMax heap with
  | none => if cur.isEmpty then outs else outs ++ [cur]
  | some (item, rest) =>
    compactLoop lsm
      ((drainEq item.key rest).2 ++ (item :: (drainEq item.key rest).1).filterMap (succItem lsm))
      (compactAcc lsm item cur outs).1 (compactAcc lsm item cur outs).2
termination_by 2 * heapMeasure lsm heap + heap.length
decreasing_by
  have hperm := popMax_perm hpop
  have hd := drainEq_perm item.key rest
  have hm1 : heapMeasure lsm heap
      = heapWeight lsm item + (heapMeasure lsm (drainEq item.key rest).1
        + heapMeasure lsm (drainEq item.key rest).2) := by
    rw [heapMeasure_perm lsm hperm]
    have : heapMeasure lsm (item :: rest) = heapWeight lsm item + heapMeasure lsm rest := by
      simp [heapMeasure]
    rw [this, heapMeasure_perm lsm hd, heapMeasure_append]
  have hl1 : heap.length = 1 + (drainEq item.key rest).1.length + (drainEq item.key rest).2.length := by
    have := hperm.length_eq
    have := hd.length_eq
    simp only [List.length_cons, List.length_append] at *
    omega
  have hpush := heapMeasure_filterMap_succ lsm (item :: (drainEq item.key rest).1)
  have hplen : ((item :: (drainEq item.key rest).1).filterMap (succItem lsm)).length
      ≤ 1 + (drainEq item.key rest).1.length := by
    have := List.length_filterMap_le (succItem lsm) (item :: (drainEq item.key rest).1)
    simp only [List.length_cons] at this
    omega
  have hmi : heapMeasure lsm (item :: (drainEq item.key rest).1)
      = heapWeight lsm item + heapMeasure lsm (drainEq item.key rest).1 := by
    simp [heapMeasure]
  rw [heapMeasure_append, List.length_append]
  omega

/-- The flat sequence of entries emitted by the merge loop (the
concatenation of all output buffers, before splitting into SSTs). -/
def compactFlat (lsm : List (List SstEntry)) (heap : List HeapItem) : List SstEntry :=
  match hpop : popMax heap with
  | none => []
  | some (item, rest) =>
    (if (entryAt lsm item.sst_file_index item.sst_position_index).is_delete then []
     else [entryAt lsm item.sst_file_index item.sst_position_index])
      ++ compactFlat lsm
          ((drainEq item.key rest).2
            ++ (item :: (drainEq item.key rest).1).filterMap (succItem lsm))
termination_by 2 * heapMeasure lsm heap + heap.length
decreasing_by
  have hperm := popMax_perm hpop
  have hd := drainEq_perm item.key rest
  have hm1 : heapMeasure lsm heap
      = heapWeight lsm item + (heapMeasure lsm (drainEq item.key rest).1
        + heapMeasure lsm (drainEq item.key rest).2) := by
    rw [heapMeasure_perm lsm hperm]
    have : heapMeasure lsm (item :: rest) = heapWeight lsm item + heapMeasure lsm rest := by
      simp [heapMeasure]
    rw [this, heapMeasure_perm lsm hd, heapMeasure_append]
  have hl1 : heap.length = 1 + (drainEq item.key rest).1.length + (drainEq item.key rest).2.length := by
    have := hperm.length_eq
    have := hd.length_eq
    simp only [List.length_cons, List.length_append] at *
    omega
  have hpush := heapMeasure_filterMap_succ lsm (item :: (drainEq item.key rest).1)
  have hplen : ((item :: (drainEq item.key rest).1).filterMap (succItem lsm)).length
      ≤ 1 + (drainEq item.key rest).1.length := by
    have := List.length_filterMap_le (succItem lsm) (item :: (drainEq item.key rest).1)
    simp only [List.length_cons] at this
    omega
  have hmi : heapMeasure lsm (item :: (drainEq item.key rest).1)
      = heapWeight lsm item + heapMeasure lsm (drainEq item.key rest).1 := by
    simp [heapMeasure]
  rw [heapMeasure_append, List.length_append]
  omega

/-! ## Engine state and operations (`MemTable` in `src/memtable.rs`)

The state gathers the memtable (`requests`), the WAL file contents, the
manifest cache, the negative cache, the compaction counter, the SST
files on disk (path ↦ parsed contents) and the lines of the on-disk
manifest file.  File writes always succeed in the model; the only
modelled I/O failure is opening a path that does not exist, which is
what `?` propagates in `search_sst` and `compact_sst`. -/

structure St where
  requests : List (Key × SstEntry)
  wal : List WalLine
  manifestCache : List String
  negCache : List Key
  updates : Nat
  fsys : List (String × List SstEntry)
  manifestFile : List String

/-- `HashSet::insert` on the negative cache. -/
def negInsert (nc : List Key) (k : Key) : List Key := if k ∈ nc then nc else k :: nc

/-- `HashSet::remove` on the negative cache. -/
def negRemove (nc : List Key) (k : Key) : List Key := nc.erase k

/-- `sort_by_key(|request| request.key().clone())`: stable ascending
order on keys. -/
def leEntryKey (a b : SstEntry) : Bool := !strLt b.key a.key

/-- `MemTable::try_flush` past its threshold check: drain the memtable,
sort by key, write one new SST, append its path to the manifest read
from disk, atomically replace the manifest, truncate the WAL, and push
the path onto `manifest_cache`. -/
def flush (s : St) : St :=
  let path := sstPath (nextSstId s.manifestCache)
  let entries := (s.requests.map Prod.snd).mergeSort leEntryKey
  { requests := []
    wal := []
    manifestCache := s.manifestCache ++ [path]
    negCache := s.negCache
    updates := s.updates
    fsys := alistInsert s.fsys path entries
    manifestFile := s.manifestFile ++ [path] }

/-- `MemTable::try_flush`. -/
def tryFlush (s : St) : St :=
  if s.requests.length < FLUSH_THRESHOLD then s else flush s

/-- `compact_sst`'s initial load of every SST referenced by the
manifest cache (`?` fails if some path cannot be opened). -/
def readAll (fsys : List (String × List SstEntry)) : List String → Option (List (List SstEntry))
  | [] => some []
  | p :: rest =>
    match alistLookup fsys p with
    | none => none
    | some es => (readAll fsys rest).map fun l => es :: l

/-- Seeding of the merge heap with the first entry of each non-empty
SST (`lsm_tree.iter().enumerate().filter_map(...)`). -/
def seedHeap (lsm : List (List SstEntry)) : List HeapItem :=
  (List.range lsm.length).filterMap fun i =>
    ((lsm.getD i []).head?).map fun e => ⟨e.key, i, 0⟩

/-- The paths of `n` consecutively numbered SSTs starting at `id`
(`compact_sst` increments `next_id` once per written output file). -/
def pathsFrom (id : Nat) : Nat → List String
  | 0 => []
  | n + 1 => sstPath id :: pathsFrom (id + 1) n

/-- `MemTable::compact_sst`: no-op on an empty manifest cache; else load
all SSTs, run the k-way merge into new SST files whose ids continue from
`next_sst_id`, replace the manifest with the new paths, delete the old
files, and install the new cache. -/
def compactSst (s : St) : Option St :=
  if s.manifestCache.isEmpty then some s
  else
    match readAll s.fsys s.manifestCache with
    | none => none
    | some lsm =>
      let outs := compactLoop lsm (seedHeap lsm) [] []
      let newPaths := pathsFrom (nextSstId s.manifestCache) outs.length
      let fs₁ := (newPaths.zip outs).foldl (fun fs pe => alistInsert fs pe.1 pe.2) s.fsys
      let fs₂ := s.manifestCache.foldl (fun fs p => alistErase fs p) fs₁
      some { s with fsys := fs₂, manifestFile := newPaths, manifestCache := newPaths }

/-- `MemTable::try_compact`: bump the mutation counter; at
`COMPACTION_THRESHOLD`, compact and reset the counter. -/
def tryCompact (s : St) : Option St :=
  let s₁ := { s with updates := s.updates + 1 }
  if s₁.updates < COMPACTION_THRESHOLD then some s₁
  else
    match compactSst s₁ with
    | none => none
    | some s₂ => some { s₂ with updates := 0 }

/-- `MemTable::search_sst`: scan `manifest_cache` newest-first; in the
first SST containing the key, the entry decides (`request.value()`,
which is `None` for a tombstone); propagate an error if a listed SST
cannot be opened. -/
def searchSstGo (fsys : List (String × List SstEntry)) (k : Key) :
    List String → Option (Option Value)
  | [] => some none
  | p :: rest =>
    match alistLookup fsys p with
    | none => none
    | some es =>
      match es.find? (fun e => e.key == k) with
      | some e => some e.value
      | none => searchSstGo fsys k rest

/-- `MemTable::get`: memtable first, then negative cache, then SST scan;
a scan that finds nothing (`Ok(None)`) inserts the key into the negative
cache.  Returns the `Result<Option<Value>>` (`none` = `Err`) and the
state (only the negative cache can change). -/
def getOp (s : St) (k : Key) : Option (Option Value) × St :=
  match alistLookup s.requests k with
  | some e => (some e.value, s)
  | none =>
    if k ∈ s.negCache then (some none, s)
    else
      match searchSstGo s.fsys k s.manifestCache.reverse with
      | some none => (some none, { s with negCache := negInsert s.negCache k })
      | some (some v) => (some (some v), s)
      | none => (none, s)

/-- `MemTable::put`: append to the WAL, insert into the memtable,
`try_flush`, `try_compact`, then remove the key from the negative cache.
If compaction fails, the error propagates before the negative-cache
update (the counter bump still happened). -/
def putOp (s : St) (k : Key) (v : Value) : St :=
  let s₁ := { s with
    wal := s.wal ++ [WalLine.record (walHash (Entry.put k v)) (Entry.put k v)]
    requests := alistInsert s.requests k (SstEntry.put k v) }
  let s₂ := tryFlush s₁
  match tryCompact s₂ with
  | none => { s₂ with updates := s₂.updates + 1 }
  | some s₃ => { s₃ with negCache := negRemove s₃.negCache k }

/-- `MemTable::delete`: like `put`, but insert a tombstone and *insert*
the key into the negative cache on success. -/
def delOp (s : St) (k : Key) : St :=
  let s₁ := { s with
    wal := s.wal ++ [WalLine.record (walHash (Entry.delete k)) (Entry.delete k)]
    requests := alistInsert s.requests k (SstEntry.delete k) }
  let s₂ := tryFlush s₁
  match tryCompact s₂ with
  | none => { s₂ with updates := s₂.updates + 1 }
  | some s₃ => { s₃ with negCache := negInsert s₃.negCache k }

/-- One external engine request. -/
inductive Op where
  | put (k : Key) (v : Value)
  | del (k : Key)
  | get (k : Key)

def step (s : St) : Op → St
  | .put k v => putOp s k v
  | .del k => delOp s k
  | .get k => (getOp s k).2

/-- The engine state right after `startup()` on a fresh directory
(empty manifest, empty WAL), followed by the given requests. -/
def initSt : St := ⟨[], [], [], [], 0, [], []⟩

def runOps (ops : List Op) : St := ops.foldl step initSt

/-- The iteration order of a Rust `HashSet` built from `xs`: some
permutation of the distinct elements of `xs` (the order is arbitrary,
seeded per process). -/
def SetIter (xs iter : List String) : Prop := iter.Perm xs.dedup

/-- `MemTable::startup`: ensure directory and manifest exist, read the
manifest's lines *into a `HashSet`*, delete `.json` files not referenced
by the manifest, extend `manifest_cache` with the set's iteration order,
then create the WAL if absent and replay it into the memtable.
`iter` is the iteration order the `HashSet` happened to produce; any
`SetIter manifestLines iter` is possible. -/
def startup (manifestLines iter : List String) (walLines : List WalLine)
    (fsys₀ : List (String × List SstEntry)) : St :=
  { requests := existingEntries walLines []
    wal := walLines
    manifestCache := iter
    negCache := []
    updates := 0
    fsys := fsys₀.filter fun pc => manifestLines.contains pc.1
    manifestFile := manifestLines }

/-! ## Order facts used by flush sorting -/

theorem strLt_false_trans {a b c : String} (h₁ : strLt b a = false) (h₂ : strLt c b = false) :
    strLt c a = false := by
  by_contra h
  have hca : strLt c a = true := by simpa using h
  cases hab : strLt a b with
  | true =>
    have hcb := strLt_trans hca hab
    rw [h₂] at hcb
    cases hcb
  | false =>
    have hab' : a = b := strLt_eq_of_not hab h₁
    subst hab'
    rw [h₂] at hca
    cases hca

theorem leEntryKey_trans (a b c : SstEntry) (h₁ : leEntryKey a b = true)
    (h₂ : leEntryKey b c = true) : leEntryKey a c = true := by
  simp only [leEntryKey, Bool.not_eq_true'] at h₁ h₂ ⊢
  exact strLt_false_trans h₁ h₂

theorem leEntryKey_total (a b : SstEntry) : (leEntryKey a b || leEntryKey b a) = true := by
  simp only [leEntryKey, Bool.or_eq_true, Bool.not_eq_true']
  cases hab : strLt b.key a.key with
  | false => exact Or.inl rfl
  | true => exact Or.inr (strLt_asymm hab)

/-! ## The SST scan performed by `get` -/

/-- The entry that decides a key during the newest-first SST scan: the
first match over `manifest_cache` in reverse order. -/
def newestSstEntry (s : St) (k : Key) : Option SstEntry :=
  s.manifestCache.reverse.findSome? fun p =>
    ((alistLookup s.fsys p).getD []).find? fun e => e.key == k

theorem searchSstGo_eq (fsys : List (String × List SstEntry)) (k : Key)
    (paths : List String) (hr : ∀ p ∈ paths, (alistLookup fsys p).isSome) :
    searchSstGo fsys k paths
      = some ((paths.findSome? fun p =>
          ((alistLookup fsys p).getD []).find? fun e => e.key == k).bind SstEntry.value) := by
  induction paths with
  | nil => simp [searchSstGo]
  | cons p rest ih =>
    have hp : (alistLookup fsys p).isSome := hr p (by simp)
    rcases ho : alistLookup fsys p with _ | es
    · rw [ho] at hp
      cases hp
    · rw [searchSstGo, ho]
      rcases hf : es.find? (fun e => e.key == k) with _ | e
      · rw [List.findSome?_cons]
        simp only [ho, Option.getD_some, hf]
        exact ih fun q hq => hr q (by simp [hq])
      · rw [List.findSome?_cons]
        simp only [ho, Option.getD_some, hf, Option.some_bind]

/-! ## Claim theorems (first group) -/

/-- **C1** (code bug).  `startup` is supposed to load `manifest_cache`
equal to the on-disk manifest lines in file order (oldest first), but it
collects the lines into a `HashSet` and extends the cache in the set's
arbitrary iteration order.  With a two-line manifest there is an
admissible iteration order under which the cache is *not* the file's
line order, so the claimed equality fails. -/
theorem c1_startup_manifest_cache_unordered :
    SetIter ["data/sst/sst-1.json", "data/sst/sst-2.json"]
        ["data/sst/sst-2.json", "data/sst/sst-1.json"] ∧
    (startup ["data/sst/sst-1.json", "data/sst/sst-2.json"]
        ["data/sst/sst-2.json", "data/sst/sst-1.json"] [] []).manifestCache
      ≠ ["data/sst/sst-1.json", "data/sst/sst-2.json"] := by
  constructor
  · have hd : (["data/sst/sst-1.json", "data/sst/sst-2.json"] : List String).dedup
        = ["data/sst/sst-1.json", "data/sst/sst-2.json"] := by decide
    rw [SetIter, hd]
    exact List.Perm.swap _ _ _
  · intro h
    have : (startup ["data/sst/sst-1.json", "data/sst/sst-2.json"]
        ["data/sst/sst-2.json", "data/sst/sst-1.json"] [] []).manifestCache
        = ["data/sst/sst-2.json", "data/sst/sst-1.json"] := rfl
    rw [this] at h
    have := congrArg (fun l => List.head? l) h
    simp at this

/-- **C4.** WAL replay reads the log line by line, skipping blank lines;
each framed record is validated by recomputing the CRC-32 over the
canonical serialization of its entry and comparing with the stored hash
(`logValidate`); at the first parse error (`bad` line) or checksum
mismatch replay stops and discards all remaining lines, while every
earlier valid record is honored, applied last-wins per key into the
recovered map. -/
theorem c4_wal_replay_torn_tail (lines : List WalLine) :
    existingEntries lines [] = applyEntries [] (validEntries lines) :=
  existingEntries_eq_applyEntries lines []

/-- **C6.** A key present in the memtable is decided by its pending
entry alone: `get` returns `Ok(entry.value())` — `Some v` for a put,
`None` for a tombstone — and the state (negative cache included) is
unchanged.  The statement holds for *every* state with that memtable
binding, whatever the negative cache, the manifest cache and the SST
files contain, so neither is consulted. -/
theorem c6_get_memtable_hit (s : St) (k : Key) (e : SstEntry)
    (h : alistLookup s.requests k = some e) :
    getOp s k = (some e.value, s) := by
  simp [getOp, h]

theorem c6_get_memtable_hit_witness :
    getOp { initSt with requests := [("a", SstEntry.put "a" 5)] } "a"
      = (some (some 5), { initSt with requests := [("a", SstEntry.put "a" 5)] }) :=
  c6_get_memtable_hit _ "a" (SstEntry.put "a" 5) (by decide)

/-- **C7.** For a key absent from the memtable and from the negative
cache (all SSTs listed in `manifest_cache` being readable), `get` scans
the SSTs newest-first: the first SST containing the key decides the
result — the entry's value, i.e. `Some v` for a `Put` and `None` for a
`Delete` — and if no SST contains the key, the key is inserted into the
negative cache and `None` is returned. -/
theorem c7_get_sst_scan (s : St) (k : Key)
    (hm : alistLookup s.requests k = none) (hn : k ∉ s.negCache)
    (hr : ∀ p ∈ s.manifestCache, (alistLookup s.fsys p).isSome) :
    (getOp s k).1 = some ((newestSstEntry s k).bind SstEntry.value) ∧
    ((∀ p ∈ s.manifestCache, ∀ e ∈ (alistLookup s.fsys p).getD [], e.key ≠ k) →
      (getOp s k).2.negCache = negInsert s.negCache k ∧ (getOp s k).1 = some none) := by
  have hsearch := searchSstGo_eq s.fsys k s.manifestCache.reverse
    fun p hp => hr p (List.mem_reverse.mp hp)
  have hNE : (s.manifestCache.reverse.findSome? fun p =>
      ((alistLookup s.fsys p).getD []).find? fun e => e.key == k) = newestSstEntry s k := rfl
  rw [hNE] at hsearch
  refine ⟨?_, ?_⟩
  · rcases hX : (newestSstEntry s k).bind SstEntry.value with _ | v <;>
      rw [hX] at hsearch <;> simp [getOp, hm, hn, hsearch]
  · intro hno
    have hnone : newestSstEntry s k = none := by
      rw [newestSstEntry, List.findSome?_eq_none]
      intro p hp
      rw [List.find?_eq_none]
      intro e he
      have := hno p (List.mem_reverse.mp hp) e he
      simpa using this
    have hX : (newestSstEntry s k).bind SstEntry.value = none := by rw [hnone]; rfl
    rw [hX] at hsearch
    simp [getOp, hm, hn, hsearch]

theorem c7_get_sst_scan_witness :
    (alistLookup (initSt.requests) "a" = none) ∧ ("a" ∉ initSt.negCache) ∧
    (∀ p ∈ initSt.manifestCache, (alistLookup initSt.fsys p).isSome) ∧
    ((getOp initSt "a").1 = some ((newestSstEntry initSt "a").bind SstEntry.value) ∧
     ((∀ p ∈ initSt.manifestCache, ∀ e ∈ (alistLookup initSt.fsys p).getD [], e.key ≠ "a") →
       (getOp initSt "a").2.negCache = negInsert initSt.negCache "a" ∧
       (getOp initSt "a").1 = some none)) :=
  ⟨rfl, by decide, by simp [initSt], c7_get_sst_scan initSt "a" rfl (by decide) (by simp [initSt])⟩

/-- **C5.** When a put or delete has brought the number of distinct
pending memtable keys to at least `FLUSH_THRESHOLD` (2000; the memtable
is a map keyed by `Key`, so its length counts distinct keys), the
subsequent `try_flush` flushes: the memtable is drained empty, the
drained entries — puts and tombstones alike — are written, sorted
ascending by key, as exactly one new SST file, the manifest file keeps
its prior lines in order with the new SST path appended as the last
line, the WAL is truncated, and the path is appended to
`manifest_cache`. -/
theorem c5_flush_at_threshold (s : St) (h : FLUSH_THRESHOLD ≤ s.requests.length) :
    tryFlush s = flush s ∧
    (flush s).requests = [] ∧
    (flush s).wal = [] ∧
    (flush s).manifestFile = s.manifestFile ++ [sstPath (nextSstId s.manifestCache)] ∧
    (flush s).manifestCache = s.manifestCache ++ [sstPath (nextSstId s.manifestCache)] ∧
    (flush s).fsys = alistInsert s.fsys (sstPath (nextSstId s.manifestCache))
        ((s.requests.map Prod.snd).mergeSort leEntryKey) ∧
    ((s.requests.map Prod.snd).mergeSort leEntryKey).Perm (s.requests.map Prod.snd) ∧
    List.Pairwise (fun a b => leEntryKey a b = true)
      ((s.requests.map Prod.snd).mergeSort leEntryKey) := by
  refine ⟨?_, rfl, rfl, rfl, rfl, rfl, ?_, ?_⟩
  · rw [tryFlush, if_neg]
    omega
  · exact List.mergeSort_perm _ _
  · exact List.sorted_mergeSort leEntryKey_trans leEntryKey_total _

/-- A concrete 2000-key memtable used to witness the flush trigger. -/
def bigRequests : List (Key × SstEntry) :=
  (List.range 2000).map fun i => (natToString i, SstEntry.put (natToString i) i)

theorem c5_flush_at_threshold_witness :
    FLUSH_THRESHOLD ≤ ({ initSt with requests := bigRequests } : St).requests.length ∧
    tryFlush { initSt with requests := bigRequests }
      = flush { initSt with requests := bigRequests } :=
  ⟨by simp [bigRequests, FLUSH_THRESHOLD],
   (c5_flush_at_threshold { initSt with requests := bigRequests }
     (by simp [bigRequests, FLUSH_THRESHOLD])).1⟩

/-- **C8** (corrected): `next_sst_id` does *not* compute
`max(id in manifest_cache) + 1`; it parses the id of the *last* cache
line and adds 1.  On the cache `[sst-5, sst-2]` it returns `3`, although
`5` is an id listed in the cache, so the result is not one greater than
the maximum (which would be `6`). -/
theorem c8_next_sst_id_not_max :
    nextSstId [sstPath 5, sstPath 2] = 3 ∧
    5 ∈ ([sstPath 5, sstPath 2].filterMap parseSstId) ∧
    nextSstId [sstPath 5, sstPath 2] ≠ 5 + 1 := by
  have h2 := parseSstId_sstPath 2
  have h5 := parseSstId_sstPath 5
  have hv : nextSstId [sstPath 5, sstPath 2] = 3 := by
    rw [nextSstId, show ([sstPath 5, sstPath 2].getLast?) = some (sstPath 2) from rfl,
      Option.some_bind, h2]
    rfl
  refine ⟨hv, ?_, by rw [hv]; omega⟩
  rw [show [sstPath 5, sstPath 2].filterMap parseSstId
      = [sstPath 5, sstPath 2].filterMap parseSstId from rfl]
  rw [List.filterMap_cons_some h5, List.filterMap_cons_some h2]
  simp

/-- **C8** (amended).  `next_sst_id` returns the id parsed from the
*last* element of `manifest_cache` plus one, and `1` when the cache is
empty.  Whenever the cache lists SSTs with strictly ascending ids —
which the ordered-manifest invariant provides — the last id is the
maximum, so the result coincides with `max(id in manifest_cache) + 1`,
starting at 1. -/
theorem c8_next_sst_id_last_plus_one (ids : List Nat) (hne : ids ≠ [])
    (hs : List.Chain' (· < ·) ids) :
    nextSstId (ids.map sstPath) = ids.getLastD 0 + 1 ∧
    (∀ i ∈ ids, i ≤ ids.getLastD 0) ∧
    nextSstId [] = 1 :=
  ⟨nextSstId_map_sstPath ids hne, chain'_lt_le_getLastD hs, rfl⟩

theorem c8_next_sst_id_last_plus_one_witness :
    ([1, 2] : List Nat) ≠ [] ∧ List.Chain' (· < ·) [1, 2] ∧
    (nextSstId ([1, 2].map sstPath) = [1, 2].getLastD 0 + 1 ∧
     (∀ i ∈ ([1, 2] : List Nat), i ≤ [1, 2].getLastD 0) ∧
     nextSstId [] = 1) :=
  ⟨by decide, by simp [List.chain'_cons],
   c8_next_sst_id_last_plus_one [1, 2] (by decide) (by simp [List.chain'_cons])⟩

/-! ## Characterisation of the heap order

`heapCmp a b = .gt` means `a` pops before `b`: `a` has the smaller key,
or the same key and the larger SST index (younger SST), with
`sst_position_index` breaking the remaining ties. -/

theorem natCmpOrd_of_lt {a b : Nat} (h : a < b) : natCmpOrd a b = .lt := by
  simp [natCmpOrd, h]

theorem natCmpOrd_of_gt {a b : Nat} (h : b < a) : natCmpOrd a b = .gt := by
  have : ¬ a < b := by omega
  simp [natCmpOrd, h, this]

theorem natCmpOrd_of_eq {a b : Nat} (h : a = b) : natCmpOrd a b = .eq := by
  subst h
  simp [natCmpOrd]

theorem heapCmp_of_key_lt {a b : HeapItem} (h : strLt a.key b.key = true) :
    heapCmp a b = .gt := by
  have h' : strCmpOrd a.key b.key = .lt := by simp [strCmpOrd, h]
  rw [heapCmp, h']
  rfl

theorem heapCmp_of_key_gt {a b : HeapItem} (h : strLt b.key a.key = true) :
    heapCmp a b = .lt := by
  have h₂ : strLt a.key b.key = false := strLt_asymm h
  have h' : strCmpOrd a.key b.key = .gt := by simp [strCmpOrd, h, h₂]
  rw [heapCmp, h']
  rfl

theorem strCmpOrd_of_eq {a b : String} (h : a = b) : strCmpOrd a b = .eq := by
  subst h
  simp [strCmpOrd, strLt_irrefl]

theorem heapCmp_keyEq_fi_lt {a b : HeapItem} (hk : a.key = b.key)
    (h : a.sst_file_index < b.sst_file_index) : heapCmp a b = .lt := by
  rw [heapCmp, strCmpOrd_of_eq hk, natCmpOrd_of_lt h]
  rfl

theorem heapCmp_keyEq_fi_gt {a b : HeapItem} (hk : a.key = b.key)
    (h : b.sst_file_index < a.sst_file_index) : heapCmp a b = .gt := by
  rw [heapCmp, strCmpOrd_of_eq hk, natCmpOrd_of_gt h]
  rfl

theorem heapCmp_keyEq_fiEq {a b : HeapItem} (hk : a.key = b.key)
    (hf : a.sst_file_index = b.sst_file_index) :
    heapCmp a b = natCmpOrd a.sst_position_index b.sst_position_index := by
  rw [heapCmp, strCmpOrd_of_eq hk, natCmpOrd_of_eq hf]
  cases h : natCmpOrd a.sst_position_index b.sst_position_index <;> rfl

theorem heapCmp_gt_iff (a b : HeapItem) :
    heapCmp a b = .gt ↔
      (strLt a.key b.key = true ∨
       (a.key = b.key ∧ (b.sst_file_index < a.sst_file_index ∨
        (a.sst_file_index = b.sst_file_index ∧
         b.sst_position_index < a.sst_position_index)))) := by
  constructor
  · intro h
    cases hk₁ : strLt a.key b.key with
    | true => exact Or.inl rfl
    | false =>
      cases hk₂ : strLt b.key a.key with
      | true =>
        rw [heapCmp_of_key_gt hk₂] at h
        cases h
      | false =>
        have hk : a.key = b.key := strLt_eq_of_not hk₁ hk₂
        rcases Nat.lt_trichotomy a.sst_file_index b.sst_file_index with hf | hf | hf
        · rw [heapCmp_keyEq_fi_lt hk hf] at h
          cases h
        · rcases Nat.lt_trichotomy a.sst_position_index b.sst_position_index with hp | hp | hp
          · rw [heapCmp_keyEq_fiEq hk hf, natCmpOrd_of_lt hp] at h
            cases h
          · rw [heapCmp_keyEq_fiEq hk hf, natCmpOrd_of_eq hp] at h
            cases h
          · exact Or.inr ⟨hk, Or.inr ⟨hf, hp⟩⟩
        · exact Or.inr ⟨hk, Or.inl hf⟩
  · intro h
    rcases h with h | ⟨hk, h⟩
    · exact heapCmp_of_key_lt h
    · rcases h with h | ⟨hf, hp⟩
      · exact heapCmp_keyEq_fi_gt hk h
      · rw [heapCmp_keyEq_fiEq hk hf]
        exact natCmpOrd_of_gt hp

theorem heapCmp_lt_iff_gt (a b : HeapItem) : heapCmp a b = .lt ↔ heapCmp b a = .gt := by
  constructor
  · intro h
    cases hk₁ : strLt a.key b.key with
    | true =>
      rw [heapCmp_of_key_lt hk₁] at h
      cases h
    | false =>
      cases hk₂ : strLt b.key a.key with
      | true => exact heapCmp_of_key_lt hk₂
      | false =>
        have hk : a.key = b.key := strLt_eq_of_not hk₁ hk₂
        rcases Nat.lt_trichotomy a.sst_file_index b.sst_file_index with hf | hf | hf
        · exact heapCmp_keyEq_fi_gt hk.symm hf
        · rcases Nat.lt_trichotomy a.sst_position_index b.sst_position_index with hp | hp | hp
          · rw [heapCmp_keyEq_fiEq hk.symm hf.symm]
            exact natCmpOrd_of_gt hp
          · rw [heapCmp_keyEq_fiEq hk hf, natCmpOrd_of_eq hp] at h
            cases h
          · rw [heapCmp_keyEq_fiEq hk hf, natCmpOrd_of_gt hp] at h
            cases h
        · rw [heapCmp_keyEq_fi_gt hk hf] at h
          cases h
  · intro h
    rw [heapCmp_gt_iff] at h
    rcases h with h | ⟨hk, h⟩
    · exact heapCmp_of_key_gt h
    · rcases h with h | ⟨hf, hp⟩
      · exact heapCmp_keyEq_fi_lt hk.symm h
      · rw [heapCmp_keyEq_fiEq hk.symm hf.symm]
        exact natCmpOrd_of_lt hp

theorem heapCmp_gt_asymm {a b : HeapItem} (h : heapCmp a b = .gt) :
    heapCmp b a ≠ .gt := by
  rw [heapCmp_gt_iff] at h
  intro h'
  rw [heapCmp_gt_iff] at h'
  rcases h with h | ⟨hk, h⟩ <;> rcases h' with h' | ⟨hk', h'⟩
  · rw [strLt_asymm h] at h'
    cases h'
  · exact absurd hk' (strLt_ne h).symm
  · exact absurd hk (strLt_ne h').symm
  · omega

theorem heapCmp_gt_trans {a b c : HeapItem} (h₁ : heapCmp a b = .gt)
    (h₂ : heapCmp b c = .gt) : heapCmp a c = .gt := by
  rw [heapCmp_gt_iff] at h₁ h₂ ⊢
  rcases h₁ with h₁ | ⟨hk₁, h₁⟩ <;> rcases h₂ with h₂ | ⟨hk₂, h₂⟩
  · exact Or.inl (strLt_trans h₁ h₂)
  · rw [hk₂] at h₁
    exact Or.inl h₁
  · rw [← hk₁] at h₂
    exact Or.inl h₂
  · right
    refine ⟨hk₁.trans hk₂, ?_⟩
    omega

theorem heapCmp_trichotomy (a b : HeapItem) :
    heapCmp a b = .gt ∨ heapCmp b a = .gt ∨ a = b := by
  cases h₁ : strLt a.key b.key with
  | true => exact Or.inl (heapCmp_of_key_lt h₁)
  | false =>
    cases h₂ : strLt b.key a.key with
    | true => exact Or.inr (Or.inl (heapCmp_of_key_lt h₂))
    | false =>
      have heq : a.key = b.key := strLt_eq_of_not h₁ h₂
      rcases Nat.lt_trichotomy a.sst_file_index b.sst_file_index with hf | hf | hf
      · exact Or.inr (Or.inl (heapCmp_keyEq_fi_gt heq.symm hf))
      · rcases Nat.lt_trichotomy a.sst_position_index b.sst_position_index with hp | hp | hp
        · exact Or.inr (Or.inl (by
            rw [heapCmp_keyEq_fiEq heq.symm hf.symm]
            exact natCmpOrd_of_gt hp))
        · refine Or.inr (Or.inr ?_)
          cases a
          cases b
          simp_all
        · exact Or.inl (by
            rw [heapCmp_keyEq_fiEq heq hf]
            exact natCmpOrd_of_gt hp)
      · exact Or.inl (heapCmp_keyEq_fi_gt heq hf)

theorem heapCmp_ngt_trans {a b c : HeapItem} (h₁ : heapCmp a b ≠ .gt)
    (h₂ : heapCmp b c ≠ .gt) : heapCmp a c ≠ .gt := by
  intro hac
  rcases heapCmp_trichotomy a b with h | h | h
  · exact h₁ h
  · exact h₂ (heapCmp_gt_trans h hac)
  · rw [h] at hac
    exact h₂ hac

theorem heapCmp_self_ne_gt (a : HeapItem) : heapCmp a a ≠ .gt := by
  intro h
  rw [heapCmp_gt_iff] at h
  rcases h with h | ⟨_, h⟩
  · rw [strLt_irrefl] at h
    cases h
  · omega

theorem popMax_max {l : List HeapItem} {m : HeapItem} {rest : List HeapItem}
    (h : popMax l = some (m, rest)) : ∀ x ∈ l, heapCmp x m ≠ .gt := by
  induction l generalizing m rest with
  | nil => simp [popMax] at h
  | cons x xs ih =>
    rw [popMax] at h
    rcases hx : popMax xs with _ | ⟨m2, rest2⟩ <;> rw [hx] at h
    · have hxs := popMax_eq_none hx
      subst hxs
      simp only [Option.some.injEq, Prod.mk.injEq] at h
      intro y hy
      simp only [List.mem_singleton] at hy
      subst hy
      rw [← h.1]
      exact heapCmp_self_ne_gt y
    · by_cases hc : heapCmp x m2 = .lt <;> simp only [hc, if_true, if_false,
        Option.some.injEq, Prod.mk.injEq] at h
      · intro y hy
        rw [← h.1]
        rcases List.mem_cons.mp hy with hy | hy
        · subst hy
          rw [hc]
          simp
        · exact ih hx y hy
      · intro y hy
        rw [← h.1]
        rcases List.mem_cons.mp hy with hy | hy
        · subst hy
          exact heapCmp_self_ne_gt y
        · have hym := ih hx y hy
          have hmx : heapCmp m2 x ≠ .gt := fun hg => hc ((heapCmp_lt_iff_gt x m2).mpr hg)
          exact heapCmp_ngt_trans hym hmx

/-! ## Cursor view of the merge

The heap of `compact_sst` always holds exactly one item per SST file
that is not yet exhausted: the item at the file's *cursor*.  We describe
such heaps by a cursor function and relate one loop round to advancing
the cursors of all files whose cursor entry carries the popped key. -/

/-- Strictly ascending keys (the per-file SST invariant). -/
def KeysAscending (es : List SstEntry) : Prop :=
  List.Pairwise (fun a b => strLt a.key b.key = true) es

/-- The heap item a file contributes at its cursor, if any. -/
def itemAt (lsm : List (List SstEntry)) (c : Nat → Nat) (f : Nat) : Option HeapItem :=
  ((lsm.getD f []).get? (c f)).map fun e => ⟨e.key, f, c f⟩

/-- The heap contents corresponding to a cursor assignment. -/
def activeItems (lsm : List (List SstEntry)) (c : Nat → Nat) : List HeapItem :=
  (List.range lsm.length).filterMap (itemAt lsm c)

/-- The unprocessed suffix of one file. -/
def suffixAt (lsm : List (List SstEntry)) (c : Nat → Nat) (f : Nat) : List SstEntry :=
  (lsm.getD f []).drop (c f)

/-- Spec-side lookup over the unprocessed suffixes, newest file first:
the entry the engine's newest-first scan would find for `k`. -/
def specLookup (lsm : List (List SstEntry)) (c : Nat → Nat) (k : Key) : Option SstEntry :=
  (List.range lsm.length).reverse.findSome? fun f =>
    (suffixAt lsm c f).find? fun e => e.key == k

/-- Whether file `f`'s cursor entry carries key `K`. -/
def hitsKey (lsm : List (List SstEntry)) (c : Nat → Nat) (K : Key) (f : Nat) : Bool :=
  match (lsm.getD f []).get? (c f) with
  | some e => e.key == K
  | none => false

/-- Advance the cursors of all files whose cursor entry carries `K`. -/
def advance (lsm : List (List SstEntry)) (c : Nat → Nat) (K : Key) : Nat → Nat := fun f =>
  match (lsm.getD f []).get? (c f) with
  | some e => if e.key = K then c f + 1 else c f
  | none => c f

/-- Total number of unprocessed entries. -/
def measureC (lsm : List (List SstEntry)) (c : Nat → Nat) : Nat :=
  ∑ f ∈ Finset.range lsm.length, (suffixAt lsm c f).length

theorem filterMap_ite_none {α β : Type} (P : α → Bool) (g : α → Option β) (l : List α) :
    (l.filterMap fun a => if P a = true then none else g a)
      = (l.filter fun a => !P a).filterMap g := by
  induction l with
  | nil => rfl
  | cons a l ih =>
    cases h : P a <;>
      simp [List.filterMap_cons, List.filter_cons, h, ih]

theorem filterMap_ite_some {α β : Type} (P : α → Bool) (g : α → Option β) (l : List α) :
    (l.filterMap fun a => if P a = true then g a else none)
      = (l.filter P).filterMap g := by
  induction l with
  | nil => rfl
  | cons a l ih =>
    cases h : P a <;>
      simp [List.filterMap_cons, List.filter_cons, h, ih]

theorem findSome?_congr {α β : Type} {f g : α → Option β} (l : List α)
    (h : ∀ x ∈ l, f x = g x) : l.findSome? f = l.findSome? g := by
  induction l with
  | nil => rfl
  | cons a l ih =>
    rw [List.findSome?_cons, List.findSome?_cons, h a (by simp)]
    cases g a with
    | none => exact ih fun x hx => h x (by simp [hx])
    | some b => rfl

theorem itemAt_some {lsm : List (List SstEntry)} {c : Nat → Nat} {f : Nat} {x : HeapItem}
    (h : itemAt lsm c f = some x) :
    x.sst_file_index = f ∧ x.sst_position_index = c f ∧
    ∃ e, (lsm.getD f []).get? (c f) = some e ∧ x.key = e.key := by
  rw [itemAt] at h
  rcases hg : (lsm.getD f []).get? (c f) with _ | e <;> rw [hg] at h
  · cases h
  · simp only [Option.map_some', Option.some.injEq] at h
    rw [← h]
    exact ⟨rfl, rfl, e, rfl, rfl⟩

theorem mem_activeItems {lsm : List (List SstEntry)} {c : Nat → Nat} {x : HeapItem} :
    x ∈ activeItems lsm c ↔
      x.sst_file_index < lsm.length ∧ itemAt lsm c x.sst_file_index = some x := by
  rw [activeItems, List.mem_filterMap]
  constructor
  · rintro ⟨f, hf, hx⟩
    have hfi := (itemAt_some hx).1
    subst hfi
    exact ⟨by simpa using hf, hx⟩
  · rintro ⟨hf, hx⟩
    exact ⟨x.sst_file_index, by simpa using hf, hx⟩

theorem advance_not_hit {lsm : List (List SstEntry)} {c : Nat → Nat} {K : Key} {f : Nat}
    (h : hitsKey lsm c K f = false) : advance lsm c K f = c f := by
  rw [hitsKey] at h
  simp only [advance]
  rcases hg : (lsm.getD f []).get? (c f) with _ | e
  · rfl
  · rw [hg] at h
    have hk : ¬ e.key = K := by simpa using h
    simp [hk]

theorem advance_hit {lsm : List (List SstEntry)} {c : Nat → Nat} {K : Key} {f : Nat}
    (h : hitsKey lsm c K f = true) : advance lsm c K f = c f + 1 := by
  rw [hitsKey] at h
  simp only [advance]
  rcases hg : (lsm.getD f []).get? (c f) with _ | e
  · rw [hg] at h
    cases h
  · rw [hg] at h
    have hk : e.key = K := by simpa using h
    simp [hk]

theorem itemAt_advance_not_hit {lsm : List (List SstEntry)} {c : Nat → Nat} {K : Key} {f : Nat}
    (h : hitsKey lsm c K f = false) : itemAt lsm (advance lsm c K) f = itemAt lsm c f := by
  rw [itemAt, itemAt, advance_not_hit h]

theorem itemAt_advance_hit {lsm : List (List SstEntry)} {c : Nat → Nat} {K : Key} {f : Nat}
    (h : hitsKey lsm c K f = true) :
    itemAt lsm (advance lsm c K) f = (itemAt lsm c f).bind (succItem lsm) := by
  have hc' := advance_hit h
  rw [hitsKey] at h
  rcases hg : (lsm.getD f []).get? (c f) with _ | e <;> rw [hg] at h
  · cases h
  · rw [itemAt, hc', itemAt, hg]
    simp only [Option.map_some', Option.some_bind]
    rw [succItem]
    rcases hg2 : (lsm.getD f []).get? (c f + 1) with _ | e2 <;> simp [hg2]

theorem optionFilter_itemAt_ne (lsm : List (List SstEntry)) (c : Nat → Nat) (K : Key) (f : Nat) :
    Option.filter (fun x => !(x.key == K)) (itemAt lsm c f)
      = if hitsKey lsm c K f = true then none else itemAt lsm c f := by
  rw [itemAt, hitsKey]
  rcases hg : (lsm.getD f []).get? (c f) with _ | e
  · rfl
  · simp only [Option.map_some']
    by_cases hk : e.key = K
    · simp [Option.filter, hk]
    · have : (e.key == K) = false := by simpa using hk
      simp [Option.filter, this]

theorem optionFilter_itemAt_eq (lsm : List (List SstEntry)) (c : Nat → Nat) (K : Key) (f : Nat) :
    Option.filter (fun x => x.key == K) (itemAt lsm c f)
      = if hitsKey lsm c K f = true then itemAt lsm c f else none := by
  rw [itemAt, hitsKey]
  rcases hg : (lsm.getD f []).get? (c f) with _ | e
  · rfl
  · simp only [Option.map_some']
    by_cases hk : e.key = K
    · simp [Option.filter, hk]
    · have : (e.key == K) = false := by simpa using hk
      simp [Option.filter, this]

theorem active_step (lsm : List (List SstEntry)) (c : Nat → Nat) (K : Key) :
    (activeItems lsm (advance lsm c K)).Perm
      (((activeItems lsm c).filter fun x => !(x.key == K))
        ++ (((activeItems lsm c).filter fun x => x.key == K).filterMap (succItem lsm))) := by
  have hsplit : (List.range lsm.length).Perm
      ((List.range lsm.length).filter (hitsKey lsm c K)
        ++ ((List.range lsm.length).filter fun f => !(hitsKey lsm c K f))) :=
    (List.filter_append_perm _ _).symm
  have h1 : (activeItems lsm (advance lsm c K)).Perm
      ((((List.range lsm.length).filter (hitsKey lsm c K)).filterMap
          (itemAt lsm (advance lsm c K)))
        ++ (((List.range lsm.length).filter fun f => !(hitsKey lsm c K f)).filterMap
          (itemAt lsm (advance lsm c K)))) := by
    rw [activeItems, ← List.filterMap_append]
    exact hsplit.filterMap _
  have h2 : (((List.range lsm.length).filter fun f => !(hitsKey lsm c K f)).filterMap
        (itemAt lsm (advance lsm c K)))
      = ((activeItems lsm c).filter fun x => !(x.key == K)) := by
    rw [List.filterMap_congr (g := itemAt lsm c) (fun f hf =>
      itemAt_advance_not_hit (by simpa using (List.mem_filter.mp hf).2))]
    rw [activeItems, List.filter_filterMap,
      List.filterMap_congr (fun f _ => optionFilter_itemAt_ne lsm c K f),
      filterMap_ite_none]
  have h3 : (((List.range lsm.length).filter (hitsKey lsm c K)).filterMap
        (itemAt lsm (advance lsm c K)))
      = (((activeItems lsm c).filter fun x => x.key == K).filterMap (succItem lsm)) := by
    rw [List.filterMap_congr (g := fun f => (itemAt lsm c f).bind (succItem lsm))
      (fun f hf => itemAt_advance_hit (List.mem_filter.mp hf).2)]
    rw [← List.filterMap_filterMap]
    congr 1
    rw [activeItems, List.filter_filterMap,
      List.filterMap_congr (fun f _ => optionFilter_itemAt_eq lsm c K f),
      filterMap_ite_some]
  exact (h1.trans (by rw [h2, h3])).trans List.perm_append_comm

theorem drainEq_filter (K : Key) (l : List HeapItem)
    (hb : ∀ x ∈ l, strLt x.key K = false) :
    (drainEq K l).1.Perm (l.filter fun x => x.key == K) ∧
    (drainEq K l).2.Perm (l.filter fun x => !(x.key == K)) := by
  have H : ∀ (n : Nat) (l : List HeapItem), l.length = n →
      (∀ x ∈ l, strLt x.key K = false) →
      (drainEq K l).1.Perm (l.filter fun x => x.key == K) ∧
      (drainEq K l).2.Perm (l.filter fun x => !(x.key == K)) := by
    intro n
    induction n using Nat.strong_induction_on with
    | _ n ih =>
      intro l hl hb
      rw [drainEq]
      split
      · rename_i hpop
        have := popMax_eq_none hpop
        subst this
        simp
      · rename_i m rest hpop
        have hlen := popMax_length hpop
        have hperm := popMax_perm hpop
        by_cases hk : m.key = K
        · have hbr : ∀ x ∈ rest, strLt x.key K = false := fun x hx =>
            hb x (hperm.mem_iff.mpr (by simp [hx]))
          have ihr := ih rest.length (by omega) rest rfl hbr
          simp only [hk, if_true, eq_self_iff_true]
          constructor
          · have hfl : (l.filter fun x => x.key == K).Perm
                ((m :: rest).filter fun x => x.key == K) := hperm.filter _
            have : ((m :: rest).filter fun x => x.key == K)
                = m :: (rest.filter fun x => x.key == K) := by
              simp [List.filter_cons, hk]
            rw [this] at hfl
            exact (ihr.1.cons m).trans hfl.symm
          · have hfl : (l.filter fun x => !(x.key == K)).Perm
                ((m :: rest).filter fun x => !(x.key == K)) := hperm.filter _
            have : ((m :: rest).filter fun x => !(x.key == K))
                = rest.filter fun x => !(x.key == K) := by
              simp [List.filter_cons, hk]
            rw [this] at hfl
            exact ihr.2.trans hfl.symm
        · have hmax := popMax_max hpop
          have hnoK : ∀ x ∈ l, ¬ x.key = K := by
            intro x hx hxk
            have hbm : strLt m.key K = false := hb m (hperm.mem_iff.mpr (by simp))
            have hKm : strLt K m.key = true := by
              cases hKm : strLt K m.key with
              | true => rfl
              | false =>
                exact absurd (strLt_eq_of_not hKm hbm).symm hk
            have : heapCmp x m = .gt := heapCmp_of_key_lt (by rw [hxk]; exact hKm)
            exact hmax x hx this
          simp only [hk, if_false]
          constructor
          · have : (l.filter fun x => x.key == K) = [] := by
              rw [List.filter_eq_nil]
              intro x hx
              simpa using hnoK x hx
            rw [this]
          · have : (l.filter fun x => !(x.key == K)) = l := by
              rw [List.filter_eq_self]
              intro x hx
              simpa using hnoK x hx
            rw [this]
  exact H l.length l rfl hb

theorem measureC_mono (lsm : List (List SstEntry)) (c : Nat → Nat) (K : Key) (f : Nat) :
    (suffixAt lsm (advance lsm c K) f).length ≤ (suffixAt lsm c f).length := by
  cases hh : hitsKey lsm c K f with
  | false => rw [suffixAt, suffixAt, advance_not_hit hh]
  | true =>
    rw [suffixAt, suffixAt, advance_hit hh]
    simp only [List.length_drop]
    omega

theorem measureC_advance_lt (lsm : List (List SstEntry)) (c : Nat → Nat) (K : Key)
    {f₀ : Nat} (hf₀ : f₀ < lsm.length) (hhit : hitsKey lsm c K f₀ = true) :
    measureC lsm (advance lsm c K) < measureC lsm c := by
  apply Finset.sum_lt_sum
  · intro f _
    exact measureC_mono lsm c K f
  · refine ⟨f₀, Finset.mem_range.mpr hf₀, ?_⟩
    have hc' := advance_hit hhit
    rw [hitsKey] at hhit
    rcases hg : (lsm.getD f₀ []).get? (c f₀) with _ | e
    · rw [hg] at hhit
      cases hhit
    · obtain ⟨hlt, -⟩ := List.get?_eq_some.mp hg
      rw [suffixAt, suffixAt, hc']
      simp only [List.length_drop]
      omega

/-- Structure of a file whose cursor entry carries `K`: its suffix
starts with that entry and advancing drops exactly it. -/
theorem suffix_hit {lsm : List (List SstEntry)} {c : Nat → Nat} {K : Key} {f : Nat}
    (h : hitsKey lsm c K f = true) :
    ∃ e, (lsm.getD f []).get? (c f) = some e ∧ e.key = K ∧
      suffixAt lsm c f = e :: suffixAt lsm (advance lsm c K) f := by
  have hc' := advance_hit h
  rw [hitsKey] at h
  rcases hg : (lsm.getD f []).get? (c f) with _ | e
  · rw [hg] at h
    cases h
  · rw [hg] at h
    have hk : e.key = K := by simpa using h
    obtain ⟨hlt, hget⟩ := List.get?_eq_some.mp hg
    refine ⟨e, rfl, hk, ?_⟩
    rw [suffixAt, suffixAt, hc', List.drop_eq_getElem_cons hlt]
    congr 1

theorem suffix_advance_subset (lsm : List (List SstEntry)) (c : Nat → Nat) (K : Key)
    (f : Nat) : suffixAt lsm (advance lsm c K) f ⊆ suffixAt lsm c f := by
  cases hh : hitsKey lsm c K f with
  | false =>
    rw [suffixAt, suffixAt, advance_not_hit hh]
    exact List.Subset.refl _
  | true =>
    rw [suffixAt, suffixAt, advance_hit hh]
    intro e he
    have : (lsm.getD f []).drop (c f + 1) = ((lsm.getD f []).drop (c f)).drop 1 := by
      rw [List.drop_drop]
    rw [this] at he
    exact List.drop_subset _ _ he

theorem findSome?_reverse_range {β : Type} (g : Nat → Option β) (n f₀ : Nat) (b : β)
    (hf : f₀ < n) (htop : ∀ f, f₀ < f → f < n → g f = none) (hat : g f₀ = some b) :
    (List.range n).reverse.findSome? g = some b := by
  induction n with
  | zero => omega
  | succ n ih =>
    rw [List.range_succ, List.reverse_append]
    simp only [List.reverse_singleton, List.singleton_append, List.findSome?_cons]
    by_cases h : f₀ = n
    · subst h
      rw [hat]
    · rw [htop n (by omega) (by omega)]
      exact ih (by omega) fun f hf1 hf2 => htop f hf1 (by omega)

theorem sorted_suffix_tail {lsm : List (List SstEntry)} {c : Nat → Nat} {f : Nat}
    {e : SstEntry} (hsort : KeysAscending (lsm.getD f []))
    (hg : (lsm.getD f []).get? (c f) = some e) :
    ∀ e2 ∈ (lsm.getD f []).drop (c f + 1), strLt e.key e2.key = true := by
  obtain ⟨hlt, hget⟩ := List.get?_eq_some.mp hg
  have hdrop := List.drop_eq_getElem_cons hlt
  have hpw : List.Pairwise (fun a b => strLt a.key b.key = true)
      ((lsm.getD f []).drop (c f)) :=
    List.Pairwise.sublist (List.drop_sublist _ _) hsort
  rw [hdrop] at hpw
  have := (List.pairwise_cons.mp hpw).1
  intro e2 he2
  have hx := this e2 he2
  have : (lsm.getD f [])[c f] = e := hget
  rw [this] at hx
  exact hx

/-- A file whose cursor entry does not carry `K`, with all cursor keys
at least `K`, contributes no `K`-entry in its suffix. -/
theorem suffix_nothit_find_none {lsm : List (List SstEntry)} {c : Nat → Nat} {K : Key}
    {f : Nat} (hsort : KeysAscending (lsm.getD f []))
    (hnothit : hitsKey lsm c K f = false)
    (hlow : ∀ x, itemAt lsm c f = some x → strLt x.key K = false) :
    (suffixAt lsm c f).find? (fun e => e.key == K) = none := by
  rcases hg : (lsm.getD f []).get? (c f) with _ | e
  · have hlen : (lsm.getD f []).length ≤ c f := by
      by_contra hcon
      push_neg at hcon
      rcases List.get?_eq_get hcon with h
      rw [hg] at h
      cases h
    rw [suffixAt, List.drop_eq_nil_of_le hlen]
    rfl
  · have hkne : ¬ e.key = K := by
      rw [hitsKey, hg] at hnothit
      simpa using hnothit
    have hlow' : strLt e.key K = false := by
      apply hlow ⟨e.key, f, c f⟩
      rw [itemAt, hg]
      rfl
    have hKe : strLt K e.key = true := by
      cases hKe : strLt K e.key with
      | true => rfl
      | false => exact absurd (strLt_eq_of_not hKe hlow') (fun h => hkne h.symm)
    obtain ⟨hlt, hget⟩ := List.get?_eq_some.mp hg
    have hdrop := List.drop_eq_getElem_cons hlt
    have hgetE : (lsm.getD f [])[c f] = e := hget
    rw [suffixAt, hdrop, hgetE, List.find?_cons]
    have : (e.key == K) = false := by simpa using hkne
    rw [this]
    rw [List.find?_eq_none]
    intro e2 he2
    have h2 := sorted_suffix_tail hsort hg e2 he2
    have : strLt K e2.key = true := strLt_trans hKe h2
    intro hcon
    have he2k : e2.key = K := by simpa using hcon
    rw [he2k, strLt_irrefl] at this
    cases this

/-- If cursor keys are at least `K` and file `f₀` is the largest index
whose cursor entry carries `K`, the spec lookup for `K` returns exactly
that cursor entry. -/
theorem specLookup_eq_newest {lsm : List (List SstEntry)} {c : Nat → Nat} {K : Key}
    {f₀ : Nat} {e₀ : SstEntry}
    (hsort : ∀ f, KeysAscending (lsm.getD f []))
    (hf₀ : f₀ < lsm.length)
    (hg : (lsm.getD f₀ []).get? (c f₀) = some e₀) (hk₀ : e₀.key = K)
    (hmax : ∀ f, f < lsm.length → hitsKey lsm c K f = true → f ≤ f₀)
    (hlow : ∀ f, f < lsm.length → ∀ x, itemAt lsm c f = some x → strLt x.key K = false) :
    specLookup lsm c K = some e₀ := by
  rw [specLookup]
  apply findSome?_reverse_range _ _ f₀ _ hf₀
  · intro f hff hf
    have hnothit : hitsKey lsm c K f = false := by
      cases hh : hitsKey lsm c K f with
      | false => rfl
      | true => exact absurd (hmax f hf hh) (by omega)
    exact suffix_nothit_find_none (hsort f) hnothit (hlow f hf)
  · obtain ⟨hlt, hget⟩ := List.get?_eq_some.mp hg
    have hdrop := List.drop_eq_getElem_cons hlt
    have hgetE : (lsm.getD f₀ [])[c f₀] = e₀ := hget
    rw [suffixAt, hdrop, hgetE, List.find?_cons]
    have : (e₀.key == K) = true := by simpa using hk₀
    rw [this]

/-- Advancing the `K`-cursors does not change the spec lookup of any
other key. -/
theorem specLookup_advance_ne (lsm : List (List SstEntry)) (c : Nat → Nat) (K k : Key)
    (hk : ¬ k = K) :
    specLookup lsm (advance lsm c K) k = specLookup lsm c k := by
  rw [specLookup, specLookup]
  apply findSome?_congr
  intro f _
  cases hh : hitsKey lsm c K f with
  | false => rw [suffixAt, suffixAt, advance_not_hit hh]
  | true =>
    obtain ⟨e, hg, hek, hsuf⟩ := suffix_hit hh
    rw [hsuf, List.find?_cons]
    have : (e.key == k) = false := by
      rw [hek]
      simpa using fun h => hk h.symm
    rw [this]

/-- After advancing the `K`-cursors, every unprocessed entry has key
strictly greater than `K`. -/
theorem suffix_advance_gt {lsm : List (List SstEntry)} {c : Nat → Nat} {K : Key} {f : Nat}
    (hsort : KeysAscending (lsm.getD f []))
    (hlow : ∀ x, itemAt lsm c f = some x → strLt x.key K = false) :
    ∀ e ∈ suffixAt lsm (advance lsm c K) f, strLt K e.key = true := by
  intro e he
  rcases hg : (lsm.getD f []).get? (c f) with _ | e₀
  · exfalso
    have hlen : (lsm.getD f []).length ≤ c f := by
      by_contra hcon
      push_neg at hcon
      rcases List.get?_eq_get hcon with h
      rw [hg] at h
      cases h
    have hcf : advance lsm c K f = c f := by
      rw [advance, hg]
    rw [suffixAt, hcf, List.drop_eq_nil_of_le hlen] at he
    cases he
  · have hlow' : strLt e₀.key K = false := by
      apply hlow ⟨e₀.key, f, c f⟩
      rw [itemAt, hg]
      rfl
    by_cases hhit : hitsKey lsm c K f = true
    · obtain ⟨e₁, hg₁, hek₁, hsuf⟩ := suffix_hit hhit
      rw [hg₁] at hg
      injection hg with hg
      subst hg
      have hc' := advance_hit hhit
      rw [suffixAt, hc'] at he
      have := sorted_suffix_tail hsort hg₁ e he
      rw [hek₁] at this
      exact this
    · have hnothit : hitsKey lsm c K f = false := by simpa using hhit
      have hkne : ¬ e₀.key = K := by
        rw [hitsKey, hg] at hnothit
        simpa using hnothit
      have hKe : strLt K e₀.key = true := by
        cases hKe : strLt K e₀.key with
        | true => rfl
        | false => exact absurd (strLt_eq_of_not hKe hlow') (fun h => hkne h.symm)
      rw [suffixAt, advance_not_hit hnothit] at he
      obtain ⟨hlt, hget⟩ := List.get?_eq_some.mp hg
      have hdrop := List.drop_eq_getElem_cons hlt
      have hgetE : (lsm.getD f [])[c f] = e₀ := hget
      rw [hdrop, hgetE] at he
      rcases List.mem_cons.mp he with he | he
      · rw [he]
        exact hKe
      · exact strLt_trans hKe (sorted_suffix_tail hsort hg e he)

/-- Central merge-loop invariant: run from any heap holding exactly the
cursor items, the loop emits no tombstone, emits strictly ascending
keys, emits only unprocessed entries, and its output looks up each key
to the newest unprocessed version of that key when that version is a
put, and to nothing when it is a tombstone. -/
theorem compactFlat_spec (lsm : List (List SstEntry))
    (hsort : ∀ f, KeysAscending (lsm.getD f [])) :
    ∀ (n : Nat) (c : Nat → Nat) (heap : List HeapItem),
      measureC lsm c = n →
      heap.Perm (activeItems lsm c) →
      (∀ e ∈ compactFlat lsm heap, e.is_delete = false) ∧
      KeysAscending (compactFlat lsm heap) ∧
      (∀ e ∈ compactFlat lsm heap, ∃ f, e ∈ suffixAt lsm c f) ∧
      (∀ k, (compactFlat lsm heap).find? (fun e => e.key == k)
          = ((specLookup lsm c k).bind fun e => if e.is_delete then none else some e)) := by
  intro n
  induction n using Nat.strong_induction_on with
  | _ n ih =>
    intro c heap hn hperm
    rw [compactFlat]
    split
    · rename_i hpop
      have hnil := popMax_eq_none hpop
      subst hnil
      have hact : activeItems lsm c = [] := hperm.symm.eq_nil
      have hsuf : ∀ f, suffixAt lsm c f = [] := by
        intro f
        by_cases hf : f < lsm.length
        · have hone : itemAt lsm c f = none :=
            List.filterMap_eq_nil.mp hact f (List.mem_range.mpr hf)
          rw [itemAt, Option.map_eq_none'] at hone
          have hlen : (lsm.getD f []).length ≤ c f := by
            by_contra hcon
            push_neg at hcon
            rw [List.get?_eq_get hcon] at hone
            cases hone
          rw [suffixAt, List.drop_eq_nil_of_le hlen]
        · rw [suffixAt, List.getD_eq_default _ _ (by omega), List.drop_nil]
      refine ⟨by simp, List.Pairwise.nil, by simp, ?_⟩
      intro k
      have : specLookup lsm c k = none := by
        rw [specLookup, List.findSome?_eq_none]
        intro f _
        rw [hsuf f]
        rfl
      rw [this]
      rfl
    · rename_i item rest hpop
      have hitemheap : item ∈ heap := (popMax_perm hpop).mem_iff.mpr (by simp)
      have hitem : item ∈ activeItems lsm c := hperm.mem_iff.mp hitemheap
      obtain ⟨hf₀, hiA⟩ := mem_activeItems.mp hitem
      obtain ⟨-, hpos, e₀, hg₀, hkey⟩ := itemAt_some hiA
      have hlow : ∀ f, f < lsm.length → ∀ x, itemAt lsm c f = some x →
          strLt x.key item.key = false := by
        intro f hf x hx
        have hxfi := (itemAt_some hx).1
        have hxA : x ∈ activeItems lsm c := by
          rw [mem_activeItems, hxfi]
          exact ⟨hf, hx⟩
        have hxheap : x ∈ heap := hperm.mem_iff.mpr hxA
        have hngt := popMax_max hpop x hxheap
        cases hx2 : strLt x.key item.key with
        | false => rfl
        | true => exact absurd (heapCmp_of_key_lt hx2) hngt
      have hmaxf : ∀ f, f < lsm.length → hitsKey lsm c item.key f = true →
          f ≤ item.sst_file_index := by
        intro f hf hh
        rw [hitsKey] at hh
        rcases hgf : (lsm.getD f []).get? (c f) with _ | e <;> rw [hgf] at hh
        · cases hh
        · have hek : e.key = item.key := by simpa using hh
          have hxA : (⟨e.key, f, c f⟩ : HeapItem) ∈ activeItems lsm c := by
            rw [mem_activeItems]
            refine ⟨hf, ?_⟩
            rw [itemAt, hgf]
            rfl
          have hxheap : (⟨e.key, f, c f⟩ : HeapItem) ∈ heap := hperm.mem_iff.mpr hxA
          have hngt := popMax_max hpop _ hxheap
          by_contra hcon
          push_neg at hcon
          exact hngt (heapCmp_keyEq_fi_gt hek hcon)
      have hhit₀ : hitsKey lsm c item.key item.sst_file_index = true := by
        rw [hitsKey, hg₀]
        simp [hkey.symm]
      have hrest : rest.Perm ((activeItems lsm c).erase item) := by
        have h1 : (item :: rest).Perm (activeItems lsm c) :=
          (popMax_perm hpop).symm.trans hperm
        have h2 := h1.trans (List.perm_cons_erase hitem)
        exact h2.cons_inv
      have hbrest : ∀ x ∈ rest, strLt x.key item.key = false := by
        intro x hx
        have hxheap : x ∈ heap := (popMax_perm hpop).mem_iff.mpr (by simp [hx])
        have hxA := hperm.mem_iff.mp hxheap
        obtain ⟨hxf, hxi⟩ := mem_activeItems.mp hxA
        exact hlow _ hxf _ hxi
      obtain ⟨hd1, hd2⟩ := drainEq_filter item.key rest hbrest
      have hitemK : (item.key == item.key) = true := beq_self_eq_true _
      have hdrained : (item :: (drainEq item.key rest).1).Perm
          ((activeItems lsm c).filter fun x => x.key == item.key) := by
        have hfe : ((activeItems lsm c).filter fun x => x.key == item.key).Perm
            (item :: (((activeItems lsm c).erase item).filter fun x => x.key == item.key)) := by
          have := (List.perm_cons_erase hitem).filter (fun x => x.key == item.key)
          rw [List.filter_cons, hitemK] at this
          simpa using this
        refine (List.Perm.cons item ?_).trans hfe.symm
        exact hd1.trans (hrest.filter _)
      have hrest2 : (drainEq item.key rest).2.Perm
          ((activeItems lsm c).filter fun x => !(x.key == item.key)) := by
        have hfe : ((activeItems lsm c).filter fun x => !(x.key == item.key)).Perm
            (((activeItems lsm c).erase item).filter fun x => !(x.key == item.key)) := by
          have := (List.perm_cons_erase hitem).filter (fun x => !(x.key == item.key))
          rw [List.filter_cons, hitemK] at this
          simpa using this
        exact (hd2.trans (hrest.filter _)).trans hfe.symm
      have hheap' : ((drainEq item.key rest).2
            ++ (item :: (drainEq item.key rest).1).filterMap (succItem lsm)).Perm
          (activeItems lsm (advance lsm c item.key)) := by
        refine (List.Perm.append hrest2 (hdrained.filterMap _)).trans ?_
        exact (active_step lsm c item.key).symm
      have hmlt : measureC lsm (advance lsm c item.key) < n := by
        rw [← hn]
        exact measureC_advance_lt lsm c item.key hf₀ hhit₀
      obtain ⟨ih1, ih2, ih3, ih4⟩ := ih _ hmlt (advance lsm c item.key) _ rfl hheap'.symm.symm
      have hentry : entryAt lsm item.sst_file_index item.sst_position_index = e₀ := by
        rw [entryAt, hpos, List.getD_eq_getElem?_getD, ← List.get?_eq_getElem?, hg₀]
        rfl
      have hspecK : specLookup lsm c item.key = some e₀ :=
        specLookup_eq_newest hsort hf₀ hg₀ hkey.symm hmaxf hlow
      have hgt' : ∀ e ∈ compactFlat lsm ((drainEq item.key rest).2
            ++ (item :: (drainEq item.key rest).1).filterMap (succItem lsm)),
          strLt item.key e.key = true := by
        intro e he
        obtain ⟨f, hf⟩ := ih3 e he
        by_cases hfl : f < lsm.length
        · exact suffix_advance_gt (hsort f) (hlow f hfl) e hf
        · rw [suffixAt, List.getD_eq_default _ _ (by omega), List.drop_nil] at hf
          cases hf
      have hspecK' : specLookup lsm (advance lsm c item.key) item.key = none := by
        rw [specLookup, List.findSome?_eq_none]
        intro f _
        rw [List.find?_eq_none]
        intro e he hbeq
        have hkeq : e.key = item.key := by simpa using hbeq
        by_cases hfl : f < lsm.length
        · have := suffix_advance_gt (hsort f) (hlow f hfl) e he
          rw [hkeq, strLt_irrefl] at this
          cases this
        · rw [suffixAt, List.getD_eq_default _ _ (by omega), List.drop_nil] at he
          cases he
      have he₀mem : e₀ ∈ suffixAt lsm c item.sst_file_index := by
        obtain ⟨hlt, hget⟩ := List.get?_eq_some.mp hg₀
        rw [suffixAt, List.drop_eq_getElem_cons hlt,
          show (lsm.getD item.sst_file_index [])[c item.sst_file_index] = e₀ from hget]
        simp
      rw [hentry]
      cases hdel : e₀.is_delete with
      | true =>
        simp only [hdel, if_true, List.nil_append]
        refine ⟨ih1, ih2, ?_, ?_⟩
        · intro e he
          obtain ⟨f, hf⟩ := ih3 e he
          exact ⟨f, suffix_advance_subset lsm c item.key f hf⟩
        · intro k
          by_cases hk : k = item.key
          · subst hk
            rw [ih4 item.key, hspecK', hspecK]
            simp [hdel]
          · rw [ih4 k, specLookup_advance_ne lsm c item.key k hk]
      | false =>
        simp only [hdel, Bool.false_eq_true, if_false, List.singleton_append]
        refine ⟨?_, ?_, ?_, ?_⟩
        · intro e he
          rcases List.mem_cons.mp he with he | he
          · rw [he, hdel]
          · exact ih1 e he
        · rw [KeysAscending, List.pairwise_cons]
          refine ⟨?_, ih2⟩
          intro e2 he2
          have := hgt' e2 he2
          rw [← hkey]
          exact this
        · intro e he
          rcases List.mem_cons.mp he with he | he
          · rw [he]
            exact ⟨item.sst_file_index, he₀mem⟩
          · obtain ⟨f, hf⟩ := ih3 e he
            exact ⟨f, suffix_advance_subset lsm c item.key f hf⟩
        · intro k
          by_cases hk : k = item.key
          · subst hk
            rw [List.find?_cons_of_pos _ (by simp [← hkey]), hspecK]
            simp [hdel]
          · rw [List.find?_cons_of_neg, ih4 k, specLookup_advance_ne lsm c item.key k hk]
            rw [← hkey]
            simpa using fun h => hk h.symm

/-! ## From the flat emission to output SST files -/

/-- Splitting the emitted sequence into output buffers of
`FLUSH_THRESHOLD` entries, the final partial buffer included. -/
def chunkWith (cur : List SstEntry) : List SstEntry → List (List SstEntry)
  | [] => if cur.isEmpty then [] else [cur]
  | e :: rest =>
    if FLUSH_THRESHOLD ≤ (cur ++ [e]).length then (cur ++ [e]) :: chunkWith [] rest
    else chunkWith (cur ++ [e]) rest

theorem chunkWith_cons_ge (cur : List SstEntry) (e : SstEntry) (rest : List SstEntry)
    (h : FLUSH_THRESHOLD ≤ (cur ++ [e]).length) :
    chunkWith cur (e :: rest) = (cur ++ [e]) :: chunkWith [] rest := by
  rw [chunkWith, if_pos h]

theorem chunkWith_cons_lt (cur : List SstEntry) (e : SstEntry) (rest : List SstEntry)
    (h : ¬ FLUSH_THRESHOLD ≤ (cur ++ [e]).length) :
    chunkWith cur (e :: rest) = chunkWith (cur ++ [e]) rest := by
  rw [chunkWith, if_neg h]

theorem compactLoop_eq_chunk (lsm : List (List SstEntry)) :
    ∀ (n : Nat) (heap : List HeapItem) (cur : List SstEntry) (outs : List (List SstEntry)),
      2 * heapMeasure lsm heap + heap.length = n →
      compactLoop lsm heap cur outs = outs ++ chunkWith cur (compactFlat lsm heap) := by
  intro n
  induction n using Nat.strong_induction_on with
  | _ n ih =>
    intro heap cur outs hn
    rw [compactLoop, compactFlat]
    split
    · rename_i hpop
      rw [chunkWith]
      cases h : cur.isEmpty <;> simp [h]
    · rename_i item rest hpop
      have hperm := popMax_perm hpop
      have hd := drainEq_perm item.key rest
      have hm1 : heapMeasure lsm heap
          = heapWeight lsm item + (heapMeasure lsm (drainEq item.key rest).1
            + heapMeasure lsm (drainEq item.key rest).2) := by
        rw [heapMeasure_perm lsm hperm]
        have : heapMeasure lsm (item :: rest) = heapWeight lsm item + heapMeasure lsm rest := by
          simp [heapMeasure]
        rw [this, heapMeasure_perm lsm hd, heapMeasure_append]
      have hl1 : heap.length
          = 1 + (drainEq item.key rest).1.length + (drainEq item.key rest).2.length := by
        have h1 := hperm.length_eq
        have h2 := hd.length_eq
        simp only [List.length_cons, List.length_append] at h1 h2
        omega
      have hpush := heapMeasure_filterMap_succ lsm (item :: (drainEq item.key rest).1)
      have hplen : ((item :: (drainEq item.key rest).1).filterMap (succItem lsm)).length
          ≤ 1 + (drainEq item.key rest).1.length := by
        have := List.length_filterMap_le (succItem lsm) (item :: (drainEq item.key rest).1)
        simp only [List.length_cons] at this
        omega
      have hmi : heapMeasure lsm (item :: (drainEq item.key rest).1)
          = heapWeight lsm item + heapMeasure lsm (drainEq item.key rest).1 := by
        simp [heapMeasure]
      have hlt : 2 * heapMeasure lsm ((drainEq item.key rest).2
            ++ (item :: (drainEq item.key rest).1).filterMap (succItem lsm))
          + ((drainEq item.key rest).2
            ++ (item :: (drainEq item.key rest).1).filterMap (succItem lsm)).length < n := by
        rw [heapMeasure_append, List.length_append]
        omega
      rw [ih _ hlt _ _ _ rfl]
      rw [compactAcc]
      rcases hdel : (entryAt lsm item.sst_file_index item.sst_position_index).is_delete with _ | _
      · simp only [hdel, Bool.false_eq_true, if_false, List.singleton_append]
        by_cases hth : FLUSH_THRESHOLD
            ≤ (cur ++ [entryAt lsm item.sst_file_index item.sst_position_index]).length
        · rw [chunkWith_cons_ge _ _ _ hth]
          have hth2 : FLUSH_THRESHOLD ≤ cur.length + 1 := by simpa using hth
          simp [hth2]
        · rw [chunkWith_cons_lt _ _ _ hth]
          have hth2 : ¬ FLUSH_THRESHOLD ≤ cur.length + 1 := by simpa using hth
          simp [hth2]
      · simp only [hdel, if_true, List.nil_append]

theorem chunkWith_nil (cur : List SstEntry) :
    chunkWith cur [] = if cur.isEmpty then [] else [cur] := by
  rw [chunkWith]

theorem chunkWith_join (cur : List SstEntry) (flat : List SstEntry) :
    (chunkWith cur flat).join = cur ++ flat := by
  induction flat generalizing cur with
  | nil =>
    rw [chunkWith_nil]
    cases h : cur.isEmpty with
    | true =>
      have : cur = [] := List.isEmpty_iff.mp h
      simp [this]
    | false => simp
  | cons e rest ih =>
    by_cases hth : FLUSH_THRESHOLD ≤ (cur ++ [e]).length
    · rw [chunkWith_cons_ge _ _ _ hth]
      simp [List.join, ih []]
    · rw [chunkWith_cons_lt _ _ _ hth, ih (cur ++ [e])]
      simp

theorem chunkWith_props (cur : List SstEntry) (flat : List SstEntry)
    (hasc : KeysAscending (cur ++ flat)) :
    ∀ ch ∈ chunkWith cur flat, ch ≠ [] ∧ KeysAscending ch := by
  induction flat generalizing cur with
  | nil =>
    rw [chunkWith_nil]
    cases h : cur.isEmpty with
    | true => simp
    | false =>
      intro ch hch
      simp only [Bool.false_eq_true, if_false, List.mem_singleton] at hch
      subst hch
      constructor
      · intro hnil
        rw [hnil] at h
        cases h
      · rw [List.append_nil] at hasc
        exact hasc
  | cons e rest ih =>
    by_cases hth : FLUSH_THRESHOLD ≤ (cur ++ [e]).length
    · rw [chunkWith_cons_ge _ _ _ hth]
      intro ch hch
      rcases List.mem_cons.mp hch with hch | hch
      · subst hch
        refine ⟨by simp, ?_⟩
        have hsub : (cur ++ [e]).Sublist (cur ++ e :: rest) := by
          apply List.Sublist.append_left
          exact (List.nil_sublist rest).cons₂ e
        exact List.Pairwise.sublist hsub hasc
      · have hrest : KeysAscending ([] ++ rest) := by
          simp only [List.nil_append]
          have hsub : rest.Sublist (cur ++ e :: rest) := by
            have h1 : rest.Sublist (e :: rest) := List.sublist_cons_self e rest
            exact h1.trans (List.sublist_append_right _ _)
          exact List.Pairwise.sublist hsub hasc
        exact ih [] hrest ch hch
    · rw [chunkWith_cons_lt _ _ _ hth]
      intro ch hch
      have hasc2 : KeysAscending ((cur ++ [e]) ++ rest) := by
        rw [List.append_assoc]
        simpa using hasc
      exact ih (cur ++ [e]) hasc2 ch hch


/-! ## Book-keeping lemmas for the file system and key uniqueness -/

theorem alistLookup_none_iff {α : Type} (m : List (String × α)) (k : String) :
    alistLookup m k = none ↔ k ∉ m.map Prod.fst := by
  induction m with
  | nil => simp
  | cons p rest ih =>
    obtain ⟨k', v'⟩ := p
    by_cases hk : k' = k
    · subst hk
      simp [alistLookup]
    · simp only [alistLookup, hk, if_false, List.map_cons, List.mem_cons, ih]
      have hkk : ¬ k = k' := fun h => hk h.symm
      tauto

theorem alistErase_keys_sublist {α : Type} (m : List (String × α)) (k : String) :
    ((alistErase m k).map Prod.fst).Sublist (m.map Prod.fst) := by
  induction m with
  | nil => simp [alistErase]
  | cons p rest ih =>
    obtain ⟨k', v'⟩ := p
    by_cases hk : k' = k
    · simp only [alistErase, hk, if_true, eq_self_iff_true, List.map_cons]
      exact (List.sublist_cons_self _ _)
    · simp only [alistErase, hk, if_false, List.map_cons]
      exact ih.cons₂ k'

theorem alistErase_keys_nodup {α : Type} (m : List (String × α)) (k : String)
    (h : (m.map Prod.fst).Nodup) : ((alistErase m k).map Prod.fst).Nodup :=
  List.Nodup.sublist (alistErase_keys_sublist m k) h

theorem alistLookup_erase_self {α : Type} (m : List (String × α)) (k : String)
    (h : (m.map Prod.fst).Nodup) : alistLookup (alistErase m k) k = none := by
  induction m with
  | nil => simp [alistErase]
  | cons p rest ih =>
    obtain ⟨k', v'⟩ := p
    simp only [List.map_cons, List.nodup_cons] at h
    by_cases hk : k' = k
    · subst hk
      simp only [alistErase, if_true, eq_self_iff_true]
      rw [alistLookup_none_iff]
      exact h.1
    · simp [alistErase, alistLookup, hk, ih h.2]

theorem alistLookup_erase_none {α : Type} (m : List (String × α)) (k q : String)
    (h : alistLookup m q = none) : alistLookup (alistErase m k) q = none := by
  induction m with
  | nil => simp [alistErase]
  | cons p rest ih =>
    obtain ⟨k', v'⟩ := p
    by_cases hq : k' = q
    · subst hq
      simp [alistLookup] at h
    · simp only [alistLookup, hq, if_false] at h
      by_cases hk : k' = k
      · simp [alistErase, hk, alistLookup, hq, h]
      · simp [alistErase, hk, alistLookup, hq, ih h]

theorem foldl_insert_lookup_not_mem {α : Type} (pairs : List (String × α))
    (fsys : List (String × α)) (p : String) (h : p ∉ pairs.map Prod.fst) :
    alistLookup (pairs.foldl (fun fs pe => alistInsert fs pe.1 pe.2) fsys) p
      = alistLookup fsys p := by
  induction pairs generalizing fsys with
  | nil => rfl
  | cons pe rest ih =>
    simp only [List.map_cons, List.mem_cons] at h
    push_neg at h
    rw [List.foldl_cons, ih _ h.2, alistLookup_insert_other _ _ _ _ h.1]

theorem foldl_insert_keys_nodup {α : Type} (pairs : List (String × α))
    (fsys : List (String × α)) (h : (fsys.map Prod.fst).Nodup) :
    (((pairs.foldl (fun fs pe => alistInsert fs pe.1 pe.2) fsys)).map Prod.fst).Nodup := by
  induction pairs generalizing fsys with
  | nil => exact h
  | cons pe rest ih =>
    rw [List.foldl_cons]
    exact ih _ (alistInsert_keys_nodup _ _ _ h)

theorem foldl_erase_lookup_not_mem {α : Type} (paths : List String)
    (fsys : List (String × α)) (p : String) (h : p ∉ paths) :
    alistLookup (paths.foldl (fun fs q => alistErase fs q) fsys) p = alistLookup fsys p := by
  induction paths generalizing fsys with
  | nil => rfl
  | cons q rest ih =>
    simp only [List.mem_cons] at h
    push_neg at h
    rw [List.foldl_cons, ih _ h.2, alistLookup_erase_other _ _ _ h.1]

theorem foldl_erase_keys_nodup {α : Type} (paths : List String)
    (fsys : List (String × α)) (h : (fsys.map Prod.fst).Nodup) :
    (((paths.foldl (fun fs q => alistErase fs q) fsys)).map Prod.fst).Nodup := by
  induction paths generalizing fsys with
  | nil => exact h
  | cons q rest ih =>
    rw [List.foldl_cons]
    exact ih _ (alistErase_keys_nodup _ _ h)

theorem foldl_erase_lookup_mem {α : Type} (paths : List String)
    (fsys : List (String × α)) (p : String) (hnd : (fsys.map Prod.fst).Nodup)
    (h : p ∈ paths) :
    alistLookup (paths.foldl (fun fs q => alistErase fs q) fsys) p = none := by
  induction paths generalizing fsys with
  | nil => simp at h
  | cons q rest ih =>
    rw [List.foldl_cons]
    by_cases hq : p = q
    · subst hq
      by_cases hr : p ∈ rest
      · exact ih _ (alistErase_keys_nodup _ _ hnd) hr
      · rw [foldl_erase_lookup_not_mem _ _ _ hr]
        exact alistLookup_erase_self _ _ hnd
    · rcases List.mem_cons.mp h with h' | h'
      · exact absurd h' hq
      · exact ih _ (alistErase_keys_nodup _ _ hnd) h'

theorem nodupKeys_of_ascending {l : List SstEntry} (h : KeysAscending l) :
    (l.map SstEntry.key).Nodup := by
  rw [List.Nodup, List.pairwise_map]
  exact h.imp fun hab => strLt_ne hab

theorem find?_unique {l : List SstEntry} (hnd : (l.map SstEntry.key).Nodup) {e : SstEntry}
    {k : Key} (hmem : e ∈ l) (hk : e.key = k) :
    l.find? (fun x => x.key == k) = some e := by
  induction l with
  | nil => simp at hmem
  | cons a rest ih =>
    simp only [List.map_cons, List.nodup_cons] at hnd
    rcases List.mem_cons.mp hmem with he | he
    · subst he
      exact List.find?_cons_of_pos _ (by simp [hk])
    · have hka : ¬ a.key = k := by
        intro hak
        apply hnd.1
        rw [hak, ← hk]
        exact List.mem_map_of_mem SstEntry.key he
      rw [List.find?_cons_of_neg _ (by simpa using hka)]
      exact ih hnd.2 he

theorem find?_key_perm {l₁ l₂ : List SstEntry} (hp : l₁.Perm l₂)
    (hnd : (l₁.map SstEntry.key).Nodup) (k : Key) :
    l₁.find? (fun e => e.key == k) = l₂.find? (fun e => e.key == k) := by
  rcases h₁ : l₁.find? fun e => e.key == k with _ | e₁
  · rcases h₂ : l₂.find? fun e => e.key == k with _ | e₂
    · rw [h₁, h₂]
    · exfalso
      have hmem : e₂ ∈ l₁ := hp.mem_iff.mpr (List.mem_of_find?_eq_some h₂)
      have hpred := List.find?_some h₂
      have := List.find?_eq_none.mp h₁ e₂ hmem
      exact this hpred
  · have hmem : e₁ ∈ l₂ := hp.mem_iff.mp (List.mem_of_find?_eq_some h₁)
    have hpred := List.find?_some h₁
    have hk₁ : e₁.key = k := by simpa using hpred
    rcases h₂ : l₂.find? fun e => e.key == k with _ | e₂
    · exfalso
      exact (List.find?_eq_none.mp h₂ e₁ hmem) hpred
    · have hmem₂ : e₂ ∈ l₁ := hp.mem_iff.mpr (List.mem_of_find?_eq_some h₂)
      have hk₂ : e₂.key = k := by simpa using List.find?_some h₂
      have heq := List.inj_on_of_nodup_map hnd (List.mem_of_find?_eq_some h₁) hmem₂
        (by rw [hk₁, hk₂])
      rw [h₁, h₂, heq]

theorem pathsFrom_ids (n : Nat) : ∀ id : Nat, ∃ ids : List Nat,
    pathsFrom id n = ids.map sstPath ∧ List.Chain' (· < ·) ids ∧ ∀ i ∈ ids, id ≤ i := by
  induction n with
  | zero => exact fun id => ⟨[], rfl, List.chain'_nil, by simp⟩
  | succ n ih =>
    intro id
    obtain ⟨ids, hmap, hch, hge⟩ := ih (id + 1)
    refine ⟨id :: ids, by simp [pathsFrom, hmap], ?_, ?_⟩
    · cases ids with
      | nil => simp
      | cons j js =>
        rw [List.chain'_cons]
        exact ⟨by have := hge j (by simp); omega, hch⟩
    · intro i hi
      rcases List.mem_cons.mp hi with hi | hi
      · omega
      · have := hge i hi
        omega

theorem pathsFrom_mem {p : String} {id n : Nat} (h : p ∈ pathsFrom id n) :
    ∃ i, id ≤ i ∧ p = sstPath i := by
  induction n generalizing id with
  | zero => simp [pathsFrom] at h
  | succ n ih =>
    rw [pathsFrom] at h
    rcases List.mem_cons.mp h with h | h
    · exact ⟨id, Nat.le_refl id, h⟩
    · obtain ⟨i, hi, hp⟩ := ih h
      exact ⟨i, by omega, hp⟩

theorem pathsFrom_length (id n : Nat) : (pathsFrom id n).length = n := by
  induction n generalizing id with
  | zero => rfl
  | succ n ih => simp [pathsFrom, ih]

theorem readAll_resolve (fsys : List (String × List SstEntry)) (paths : List String)
    (h : ∀ p ∈ paths, (alistLookup fsys p).isSome) :
    readAll fsys paths = some (paths.map fun p => (alistLookup fsys p).getD []) := by
  induction paths with
  | nil => rfl
  | cons p rest ih =>
    have hp := h p (by simp)
    rcases hl : alistLookup fsys p with _ | es
    · rw [hl] at hp
      cases hp
    · rw [readAll, hl, ih fun q hq => h q (by simp [hq])]
      simp [hl]

theorem newestSstEntry_resolve (s : St) (k : Key) :
    newestSstEntry s k
      = ((s.manifestCache.map fun p => (alistLookup s.fsys p).getD []).reverse).findSome?
          fun es => es.find? fun e => e.key == k := by
  rw [newestSstEntry, ← List.map_reverse, List.findSome?_map]
  rfl

/-- The file contents reachable behind the freshly written output paths
are exactly the output buffers. -/
theorem resolve_insert_fold (outs : List (List SstEntry)) : ∀ (id : Nat)
    (fsys : List (String × List SstEntry)),
    ((pathsFrom id outs.length).map fun p =>
        (alistLookup (((pathsFrom id outs.length).zip outs).foldl
          (fun fs pe => alistInsert fs pe.1 pe.2) fsys) p).getD [])
      = outs := by
  induction outs with
  | nil => intro id fsys; rfl
  | cons o rest ih =>
    intro id fsys
    have hlen : pathsFrom id (o :: rest).length
        = sstPath id :: pathsFrom (id + 1) rest.length := by
      rw [List.length_cons, pathsFrom]
    rw [hlen]
    simp only [List.zip_cons_cons, List.foldl_cons, List.map_cons]
    have hkeys : ((pathsFrom (id + 1) rest.length).zip rest).map Prod.fst
        = pathsFrom (id + 1) rest.length :=
      List.map_fst_zip _ _ (by rw [pathsFrom_length])
    have hnot : sstPath id ∉ ((pathsFrom (id + 1) rest.length).zip rest).map Prod.fst := by
      rw [hkeys]
      intro hmem
      obtain ⟨i, hi, hp⟩ := pathsFrom_mem hmem
      have := sstPath_injective hp
      omega
    have hhead : (alistLookup (((pathsFrom (id + 1) rest.length).zip rest).foldl
        (fun fs pe => alistInsert fs pe.1 pe.2) (alistInsert fsys (sstPath id) o))
          (sstPath id)).getD [] = o := by
      rw [foldl_insert_lookup_not_mem _ _ _ hnot, alistLookup_insert_self]
      rfl
    rw [hhead, ih (id + 1) (alistInsert fsys (sstPath id) o)]

theorem findSome?_find?_join (files : List (List SstEntry)) (k : Key) :
    (files.findSome? fun es => es.find? fun e => e.key == k)
      = files.join.find? fun e => e.key == k := by
  induction files with
  | nil => rfl
  | cons f fs ih =>
    rw [List.findSome?_cons, show (f :: fs).join = f ++ fs.join from rfl,
      List.find?_append, ← ih]
    cases h : f.find? fun e => e.key == k with
    | some e => rfl
    | none => rfl

theorem findSome?_reverse_index {β : Type} (L : List (List SstEntry))
    (g : List SstEntry → Option β) :
    L.reverse.findSome? g
      = (List.range L.length).reverse.findSome? fun f => g (L.getD f []) := by
  induction L using List.reverseRecOn with
  | nil => rfl
  | append_singleton ys y ih =>
    rw [List.reverse_append, List.length_append, List.length_singleton, List.range_succ,
      List.reverse_append]
    simp only [List.reverse_singleton, List.singleton_append, List.findSome?_cons]
    rw [List.getD_append_right ys [y] [] ys.length (Nat.le_refl _), Nat.sub_self]
    have hy : (([y] : List (List SstEntry)).getD 0 []) = y := rfl
    rw [hy]
    cases hg : g y with
    | some b => rfl
    | none =>
      dsimp only
      rw [ih]
      apply findSome?_congr
      intro f hf
      have hf' : f < ys.length := by
        have := List.mem_reverse.mp hf
        simpa using this
      rw [List.getD_append ys [y] [] f hf']

/-! ## The read view and the core state invariant -/

/-- The value a read of `k` observes: the pending memtable entry if
present, else the newest SST entry. -/
def view (s : St) (k : Key) : Option Value :=
  match alistLookup s.requests k with
  | some e => e.value
  | none => (newestSstEntry s k).bind SstEntry.value

/-- State well-formedness maintained by the engine between requests
(everything except the negative-cache property, which is temporarily
broken inside `put`/`delete` and restored by their final cache update). -/
structure Core (s : St) : Prop where
  reqNodup : (s.requests.map Prod.fst).Nodup
  reqKey : ∀ pe ∈ s.requests, (pe.2).key = pe.1
  cacheIds : ∃ ids, s.manifestCache = ids.map sstPath ∧ List.Chain' (· < ·) ids
  fsysNodup : (s.fsys.map Prod.fst).Nodup
  fsysDom : ∀ p, (alistLookup s.fsys p).isSome ↔ p ∈ s.manifestCache
  files : ∀ p ∈ s.manifestCache,
    ∃ es, alistLookup s.fsys p = some es ∧ KeysAscending es ∧ es ≠ []

theorem searchSst_core (s : St) (hc : Core s) (k : Key) :
    searchSstGo s.fsys k s.manifestCache.reverse
      = some ((newestSstEntry s k).bind SstEntry.value) :=
  searchSstGo_eq s.fsys k s.manifestCache.reverse fun p hp =>
    (hc.fsysDom p).mpr (List.mem_reverse.mp hp)

theorem foldl_insert_lookup_isSome {α : Type} (pairs : List (String × α))
    (fsys : List (String × α)) (p : String) (h : p ∈ pairs.map Prod.fst) :
    (alistLookup (pairs.foldl (fun fs pe => alistInsert fs pe.1 pe.2) fsys) p).isSome := by
  induction pairs generalizing fsys with
  | nil => simp at h
  | cons pe rest ih =>
    rw [List.foldl_cons]
    by_cases hr : p ∈ rest.map Prod.fst
    · exact ih _ hr
    · simp only [List.map_cons, List.mem_cons] at h
      rcases h with h | h
      · rw [foldl_insert_lookup_not_mem _ _ _ hr, h, alistLookup_insert_self]
        rfl
      · exact absurd h hr

theorem resolve_mem_insert_fold (outs : List (List SstEntry)) : ∀ (id : Nat)
    (fsys : List (String × List SstEntry)) (p : String),
    p ∈ pathsFrom id outs.length →
    ∃ es ∈ outs, alistLookup (((pathsFrom id outs.length).zip outs).foldl
        (fun fs pe => alistInsert fs pe.1 pe.2) fsys) p = some es := by
  induction outs with
  | nil =>
    intro id fsys p hp
    simp [pathsFrom] at hp
  | cons o rest ih =>
    intro id fsys p hp
    have hlen : pathsFrom id (o :: rest).length
        = sstPath id :: pathsFrom (id + 1) rest.length := by
      rw [List.length_cons, pathsFrom]
    rw [hlen] at hp ⊢
    simp only [List.zip_cons_cons, List.foldl_cons]
    rcases List.mem_cons.mp hp with hp | hp
    · subst hp
      have hkeys : ((pathsFrom (id + 1) rest.length).zip rest).map Prod.fst
          = pathsFrom (id + 1) rest.length :=
        List.map_fst_zip _ _ (by rw [pathsFrom_length])
      have hnot : sstPath id ∉ ((pathsFrom (id + 1) rest.length).zip rest).map Prod.fst := by
        rw [hkeys]
        intro hmem
        obtain ⟨i, hi, hpv⟩ := pathsFrom_mem hmem
        have := sstPath_injective hpv
        omega
      refine ⟨o, by simp, ?_⟩
      rw [foldl_insert_lookup_not_mem _ _ _ hnot, alistLookup_insert_self]
    · obtain ⟨es, hes, hl⟩ := ih (id + 1) (alistInsert fsys (sstPath id) o) p hp
      exact ⟨es, by simp [hes], hl⟩

theorem newPaths_disjoint (ids : List Nat) (hch : List.Chain' (· < ·) ids)
    (hne : ids ≠ []) (n : Nat) (p : String)
    (hp : p ∈ pathsFrom (nextSstId (ids.map sstPath)) n) : p ∉ ids.map sstPath := by
  intro hmem
  obtain ⟨i, hi, hpi⟩ := pathsFrom_mem hp
  obtain ⟨j, hj, hpj⟩ := List.mem_map.mp hmem
  have hij : j = i := sstPath_injective (by rw [hpj, hpi])
  have hle := chain'_lt_le_getLastD hch j hj
  rw [nextSstId_map_sstPath ids hne] at hi
  omega

theorem seedHeap_eq_active (lsm : List (List SstEntry)) :
    seedHeap lsm = activeItems lsm (fun _ => 0) := by
  rw [seedHeap, activeItems]
  apply List.filterMap_congr
  intro i _
  rw [itemAt]
  cases lsm.getD i [] <;> rfl

theorem specLookup_zero (lsm : List (List SstEntry)) (k : Key) :
    specLookup lsm (fun _ => 0) k
      = lsm.reverse.findSome? fun es => es.find? fun e => e.key == k := by
  rw [specLookup, findSome?_reverse_index lsm fun es => es.find? fun e => e.key == k]
  apply findSome?_congr
  intro f _
  rfl

/-- `compact_sst` under the core invariant: it succeeds, preserves the
invariant and the request/WAL/negative-cache/counter components, writes
only tombstone-free files, and resolves each key's newest SST entry to
its compacted form (the entry survives exactly when it is a `Put`). -/
theorem compactSst_core (s : St) (hc : Core s) :
    ∃ s', compactSst s = some s' ∧ Core s' ∧
      s'.requests = s.requests ∧ s'.wal = s.wal ∧ s'.negCache = s.negCache ∧
      s'.updates = s.updates ∧
      (∀ p ∈ s'.manifestCache, ∃ es, alistLookup s'.fsys p = some es ∧
        ∀ e ∈ es, e.is_delete = false) ∧
      (∀ k, newestSstEntry s' k
          = (newestSstEntry s k).bind fun e => if e.is_delete then none else some e) := by
  by_cases hcne : s.manifestCache = []
  · refine ⟨s, ?_, hc, rfl, rfl, rfl, rfl, ?_, ?_⟩
    · rw [compactSst, if_pos (by rw [hcne]; rfl)]
    · intro p hp
      rw [hcne] at hp
      cases hp
    · intro k
      rw [newestSstEntry, hcne]
      rfl
  · obtain ⟨ids, hids, hch⟩ := hc.cacheIds
    have hidsne : ids ≠ [] := by
      intro h
      rw [h] at hids
      exact hcne (by rw [hids]; rfl)
    have hdomAll : ∀ p ∈ s.manifestCache, (alistLookup s.fsys p).isSome :=
      fun p hp => (hc.fsysDom p).mpr hp
    have hread := readAll_resolve s.fsys s.manifestCache hdomAll
    set lsm : List (List SstEntry)
      := s.manifestCache.map fun p => (alistLookup s.fsys p).getD [] with hlsm
    have hsort : ∀ f, KeysAscending (lsm.getD f []) := by
      intro f
      by_cases hf : f < lsm.length
      · have hmem : lsm.getD f [] ∈ lsm := by
          rw [List.getD_eq_getElem?_getD, List.getElem?_eq_getElem hf]
          exact List.getElem_mem hf
        rw [hlsm] at hmem
        obtain ⟨p, hp, hpe⟩ := List.mem_map.mp hmem
        obtain ⟨es, hles, hasc, _⟩ := hc.files p hp
        rw [← hpe, hles]
        exact hasc
      · rw [List.getD_eq_default _ _ (Nat.le_of_not_lt hf)]
        exact List.Pairwise.nil
    obtain ⟨hnodel, hasc, _, hfind⟩ :=
      compactFlat_spec lsm hsort (measureC lsm fun _ => 0) (fun _ => 0) (seedHeap lsm)
        rfl (by rw [seedHeap_eq_active])
    set flat : List SstEntry := compactFlat lsm (seedHeap lsm) with hflat
    set outs : List (List SstEntry) := compactLoop lsm (seedHeap lsm) [] [] with houtsdef
    have houts : outs = chunkWith [] flat := by
      rw [houtsdef, compactLoop_eq_chunk lsm _ (seedHeap lsm) [] [] rfl, List.nil_append]
    have hjoin : outs.join = flat := by
      rw [houts, chunkWith_join, List.nil_append]
    have hchprops : ∀ ch ∈ outs, ch ≠ [] ∧ KeysAscending ch := by
      rw [houts]
      exact chunkWith_props [] flat (by rw [List.nil_append]; exact hasc)
    set newPaths : List String := pathsFrom (nextSstId s.manifestCache) outs.length with hnp
    set fs₁ : List (String × List SstEntry)
      := (newPaths.zip outs).foldl (fun fs pe => alistInsert fs pe.1 pe.2) s.fsys with hfs₁
    set fs₂ : List (String × List SstEntry)
      := s.manifestCache.foldl (fun fs p => alistErase fs p) fs₁ with hfs₂
    have hdisj : ∀ p ∈ newPaths, p ∉ s.manifestCache := by
      intro p hp
      rw [hids]
      refine newPaths_disjoint ids hch hidsne outs.length p ?_
      rw [← hids]
      exact hp
    have hkeys₁ : (newPaths.zip outs).map Prod.fst = newPaths :=
      List.map_fst_zip _ _ (by rw [hnp, pathsFrom_length])
    have hnew_lookup : ∀ p ∈ newPaths, alistLookup fs₂ p = alistLookup fs₁ p :=
      fun p hp => foldl_erase_lookup_not_mem _ _ _ (hdisj p hp)
    have hfs₁nodup : (fs₁.map Prod.fst).Nodup := foldl_insert_keys_nodup _ _ hc.fsysNodup
    have hfs₂nodup : (fs₂.map Prod.fst).Nodup := foldl_erase_keys_nodup _ _ hfs₁nodup
    have hold_none : ∀ p ∈ s.manifestCache, alistLookup fs₂ p = none :=
      fun p hp => foldl_erase_lookup_mem _ _ _ hfs₁nodup hp
    have hother : ∀ p, p ∉ newPaths → p ∉ s.manifestCache →
        alistLookup fs₂ p = alistLookup s.fsys p := by
      intro p hp hq
      rw [hfs₂, foldl_erase_lookup_not_mem _ _ _ hq, hfs₁,
        foldl_insert_lookup_not_mem _ _ _ (by rw [hkeys₁]; exact hp)]
    have hmem_new : ∀ p ∈ newPaths, ∃ es ∈ outs, alistLookup fs₂ p = some es := by
      intro p hp
      obtain ⟨es, hes, hl⟩ := resolve_mem_insert_fold outs (nextSstId s.manifestCache) s.fsys p
        (by rw [← hnp]; exact hp)
      exact ⟨es, hes, by rw [hnew_lookup p hp, hfs₁]; exact hl⟩
    refine ⟨{ s with fsys := fs₂, manifestFile := newPaths, manifestCache := newPaths },
      ?_, ?_, rfl, rfl, rfl, rfl, ?_, ?_⟩
    · rw [compactSst, if_neg (by simp [hcne]), hread]
    · refine ⟨hc.reqNodup, hc.reqKey, ?_, hfs₂nodup, ?_, ?_⟩
      · obtain ⟨ids₂, hm, hch₂, _⟩ := pathsFrom_ids outs.length (nextSstId s.manifestCache)
        exact ⟨ids₂, hm, hch₂⟩
      · intro p
        constructor
        · intro hsome
          by_contra hp
          by_cases hq : p ∈ s.manifestCache
          · rw [hold_none p hq] at hsome
            cases hsome
          · rw [hother p hp hq] at hsome
            exact hq ((hc.fsysDom p).mp hsome)
        · intro hp
          obtain ⟨es, _, hl⟩ := hmem_new p hp
          rw [hl]
          rfl
      · intro p hp
        obtain ⟨es, hes, hl⟩ := hmem_new p hp
        exact ⟨es, hl, (hchprops es hes).2, (hchprops es hes).1⟩
    · intro p hp
      obtain ⟨es, hes, hl⟩ := hmem_new p hp
      refine ⟨es, hl, ?_⟩
      intro e he
      exact hnodel e (by rw [← hjoin]; exact (List.mem_join).mpr ⟨es, hes, he⟩)
    · intro k
      rw [newestSstEntry_resolve]
      have hmapouts : (newPaths.map fun p => (alistLookup fs₂ p).getD []) = outs := by
        have h1 : (newPaths.map fun p => (alistLookup fs₂ p).getD [])
            = newPaths.map fun p => (alistLookup fs₁ p).getD [] :=
          List.map_congr_left fun p hp => by rw [hnew_lookup p hp]
        rw [h1, hnp, hfs₁, hnp, resolve_insert_fold outs (nextSstId s.manifestCache) s.fsys]
      have h2 : (outs.reverse.findSome? fun es => es.find? fun e => e.key == k)
          = flat.find? fun e => e.key == k := by
        rw [findSome?_find?_join]
        have hperm : outs.reverse.join.Perm flat := by
          rw [← hjoin]
          exact (outs.reverse_perm).join
        have hnd : (outs.reverse.join.map SstEntry.key).Nodup :=
          ((hperm.map SstEntry.key).nodup_iff).mpr (nodupKeys_of_ascending hasc)
        exact find?_key_perm hperm hnd k
      have h4 : (lsm.reverse.findSome? fun es => es.find? fun e => e.key == k)
          = newestSstEntry s k := by
        rw [newestSstEntry_resolve, hlsm]
      show ((newPaths.map fun p => (alistLookup fs₂ p).getD []).reverse.findSome?
          fun es => es.find? fun e => e.key == k) = _
      rw [hmapouts, h2, hfind k, specLookup_zero, h4]

theorem alistInsert_mem {α : Type} {m : List (String × α)} {k : String} {v : α}
    {pe : String × α} (h : pe ∈ alistInsert m k v) : pe = (k, v) ∨ pe ∈ m := by
  induction m with
  | nil =>
    rw [alistInsert] at h
    exact Or.inl (List.mem_singleton.mp h)
  | cons qe rest ih =>
    obtain ⟨q, w⟩ := qe
    rw [alistInsert] at h
    by_cases hq : q = k
    · rw [if_pos hq] at h
      rcases List.mem_cons.mp h with h | h
      · exact Or.inl h
      · exact Or.inr (List.mem_cons.mpr (Or.inr h))
    · rw [if_neg hq] at h
      rcases List.mem_cons.mp h with h | h
      · exact Or.inr (List.mem_cons.mpr (Or.inl h))
      · rcases ih h with h | h
        · exact Or.inl h
        · exact Or.inr (List.mem_cons.mpr (Or.inr h))

/-- With the memtable invariant that each entry records its own key, the
hash-map lookup agrees with a linear search of the stored entries. -/
theorem alistLookup_eq_snd_find (reqs : List (Key × SstEntry))
    (hk : ∀ pe ∈ reqs, (pe.2).key = pe.1) (k : Key) :
    alistLookup reqs k = (reqs.map Prod.snd).find? fun e => e.key == k := by
  induction reqs with
  | nil => rfl
  | cons pe rest ih =>
    obtain ⟨q, e⟩ := pe
    have hq : e.key = q := hk (q, e) (by simp)
    rw [alistLookup, List.map_cons, List.find?_cons]
    by_cases h : q = k
    · subst h
      simp [hq]
    · have he : (e.key == k) = false := by
        simp [hq, h]
      simp only [h, if_false, he]
      exact ih fun pe hpe => hk pe (by simp [hpe])

/-- A key-sorted run with no duplicate keys is strictly ascending. -/
theorem ascending_of_sorted_nodup (l : List SstEntry)
    (hs : List.Pairwise (fun a b => leEntryKey a b = true) l)
    (hnd : (l.map SstEntry.key).Nodup) : KeysAscending l := by
  have hnd' : List.Pairwise (fun a b : SstEntry => a.key ≠ b.key) l := by
    rw [List.Nodup, List.pairwise_map] at hnd
    exact hnd
  rw [KeysAscending]
  refine (hs.and hnd').imp ?_
  intro a b hab
  rcases hab with ⟨hle, hne⟩
  rw [leEntryKey, Bool.not_eq_true'] at hle
  cases hlt : strLt a.key b.key with
  | true => rfl
  | false => exact absurd (strLt_eq_of_not hlt hle) hne

theorem nextSstId_gt (ids : List Nat) (hch : List.Chain' (· < ·) ids) :
    ∀ i ∈ ids, i < nextSstId (ids.map sstPath) := by
  intro i hi
  have hne : ids ≠ [] := by
    intro h
    rw [h] at hi
    cases hi
  rw [nextSstId_map_sstPath ids hne]
  have := chain'_lt_le_getLastD hch i hi
  omega

theorem chain'_lt_append_singleton {ids : List Nat} {x : Nat}
    (hch : List.Chain' (· < ·) ids) (hx : ∀ i ∈ ids, i < x) :
    List.Chain' (· < ·) (ids ++ [x]) := by
  rw [List.chain'_append]
  refine ⟨hch, List.chain'_singleton x, ?_⟩
  intro y hy z hz
  simp only [List.head?_cons, Option.mem_def, Option.some.injEq] at hz
  subst hz
  exact hx y (List.mem_of_getLast?_eq_some hy)

/-- `flush` under the core invariant (with a non-empty memtable, as at
the flush threshold): the invariant is preserved, the memtable and WAL
are emptied, and every read observes the same value as before. -/
theorem flush_core (s : St) (hc : Core s) (hne : s.requests ≠ []) :
    Core (flush s) ∧ (flush s).requests = [] ∧ (flush s).wal = [] ∧
    (flush s).negCache = s.negCache ∧ (flush s).updates = s.updates ∧
    (∀ q, view (flush s) q = view s q) := by
  obtain ⟨ids, hids, hch⟩ := hc.cacheIds
  have hreq : (flush s).requests = [] := rfl
  have hfsys : (flush s).fsys = alistInsert s.fsys (sstPath (nextSstId s.manifestCache))
      ((s.requests.map Prod.snd).mergeSort leEntryKey) := rfl
  have hcache : (flush s).manifestCache
      = s.manifestCache ++ [sstPath (nextSstId s.manifestCache)] := rfl
  have hfresh : sstPath (nextSstId s.manifestCache) ∉ s.manifestCache := by
    intro hmem
    rw [hids] at hmem
    obtain ⟨j, hj, hpj⟩ := List.mem_map.mp hmem
    have hjlt := nextSstId_gt ids hch j hj
    exact absurd (sstPath_injective hpj) (Nat.ne_of_lt hjlt)
  have hperm : ((s.requests.map Prod.snd).mergeSort leEntryKey).Perm
      (s.requests.map Prod.snd) := List.mergeSort_perm _ _
  have hsorted : List.Pairwise (fun a b => leEntryKey a b = true)
      ((s.requests.map Prod.snd).mergeSort leEntryKey) :=
    List.sorted_mergeSort leEntryKey_trans leEntryKey_total _
  have hkeysnd : (s.requests.map Prod.snd).map SstEntry.key = s.requests.map Prod.fst := by
    rw [List.map_map]
    exact List.map_congr_left fun pe hpe => hc.reqKey pe hpe
  have hndsnd : ((s.requests.map Prod.snd).map SstEntry.key).Nodup := by
    rw [hkeysnd]
    exact hc.reqNodup
  have hndE : (((s.requests.map Prod.snd).mergeSort leEntryKey).map SstEntry.key).Nodup :=
    ((hperm.map SstEntry.key).nodup_iff).mpr hndsnd
  have hasc : KeysAscending ((s.requests.map Prod.snd).mergeSort leEntryKey) :=
    ascending_of_sorted_nodup _ hsorted hndE
  have hEne : (s.requests.map Prod.snd).mergeSort leEntryKey ≠ [] := by
    intro h
    have := hperm.length_eq
    rw [h, List.length_nil, List.length_map] at this
    exact hne (List.length_eq_zero.mp this.symm)
  have hfind : ∀ q, ((s.requests.map Prod.snd).mergeSort leEntryKey).find?
      (fun e => e.key == q) = alistLookup s.requests q := by
    intro q
    rw [find?_key_perm hperm hndE q, ← alistLookup_eq_snd_find s.requests hc.reqKey q]
  have hnewest : ∀ q, newestSstEntry (flush s) q
      = (((s.requests.map Prod.snd).mergeSort leEntryKey).find? fun e => e.key == q).or
          (newestSstEntry s q) := by
    intro q
    rw [newestSstEntry, hcache, hfsys, List.reverse_append]
    simp only [List.reverse_singleton, List.singleton_append, List.findSome?_cons]
    rw [alistLookup_insert_self]
    simp only [Option.getD_some]
    cases hfq : ((s.requests.map Prod.snd).mergeSort leEntryKey).find?
        fun e => e.key == q with
    | some e => rfl
    | none =>
      show (s.manifestCache.reverse.findSome? fun p =>
          ((alistLookup (alistInsert s.fsys (sstPath (nextSstId s.manifestCache))
            ((s.requests.map Prod.snd).mergeSort leEntryKey)) p).getD []).find?
              fun e => e.key == q)
        = newestSstEntry s q
      rw [newestSstEntry]
      apply findSome?_congr
      intro p hp
      have hpne : p ≠ sstPath (nextSstId s.manifestCache) := by
        intro h
        rw [h] at hp
        exact hfresh (List.mem_reverse.mp hp)
      rw [alistLookup_insert_other _ _ _ _ hpne]
  refine ⟨⟨?_, ?_, ?_, ?_, ?_, ?_⟩, rfl, rfl, rfl, rfl, ?_⟩
  · rw [hreq]
    exact List.nodup_nil
  · rw [hreq]
    intro pe hpe
    cases hpe
  · refine ⟨ids ++ [nextSstId s.manifestCache], ?_, ?_⟩
    · rw [hcache, List.map_append, ← hids]
      rfl
    · refine chain'_lt_append_singleton hch ?_
      intro i hi
      have := nextSstId_gt ids hch i hi
      rw [← hids] at this
      exact this
  · rw [hfsys]
    exact alistInsert_keys_nodup _ _ _ hc.fsysNodup
  · intro p
    rw [hfsys, hcache]
    by_cases hp : p = sstPath (nextSstId s.manifestCache)
    · subst hp
      rw [alistLookup_insert_self]
      simp
    · rw [alistLookup_insert_other _ _ _ _ hp]
      rw [List.mem_append]
      have := hc.fsysDom p
      simp only [List.mem_singleton, hp, or_false]
      exact this
  · intro p hp
    rw [hcache, List.mem_append] at hp
    rw [hfsys]
    rcases hp with hp | hp
    · have hpne : p ≠ sstPath (nextSstId s.manifestCache) := by
        intro h
        rw [h] at hp
        exact hfresh hp
      rw [alistLookup_insert_other _ _ _ _ hpne]
      exact hc.files p hp
    · rw [List.mem_singleton.mp hp, alistLookup_insert_self]
      exact ⟨_, rfl, hasc, hEne⟩
  · intro q
    rw [view, view, hreq]
    simp only [alistLookup_nil]
    rw [hnewest q, hfind q]
    cases halq : alistLookup s.requests q with
    | some e =>
      show (some e).bind SstEntry.value = _
      rfl
    | none =>
      rfl

/-- The full between-requests invariant: the core state invariant plus
the corrected negative-cache property (every cached key currently reads
as absent). -/
structure EngineInv (s : St) : Prop where
  core : Core s
  negNodup : s.negCache.Nodup
  negOk : ∀ k ∈ s.negCache, view s k = none

theorem core_set_updates (s : St) (u : Nat) (hc : Core s) : Core { s with updates := u } :=
  ⟨hc.reqNodup, hc.reqKey, hc.cacheIds, hc.fsysNodup, hc.fsysDom, hc.files⟩

theorem core_set_negCache (s : St) (nc : List Key) (hc : Core s) :
    Core { s with negCache := nc } :=
  ⟨hc.reqNodup, hc.reqKey, hc.cacheIds, hc.fsysNodup, hc.fsysDom, hc.files⟩

theorem tryFlush_core (s : St) (hc : Core s) :
    Core (tryFlush s) ∧ (tryFlush s).negCache = s.negCache ∧
    (tryFlush s).updates = s.updates ∧
    (∀ q, view (tryFlush s) q = view s q) := by
  rw [tryFlush]
  by_cases h : s.requests.length < FLUSH_THRESHOLD
  · rw [if_pos h]
    exact ⟨hc, rfl, rfl, fun q => rfl⟩
  · rw [if_neg h]
    have hne : s.requests ≠ [] := by
      intro hnil
      rw [hnil] at h
      simp [FLUSH_THRESHOLD] at h
    obtain ⟨h1, _, _, h4, h5, h6⟩ := flush_core s hc hne
    exact ⟨h1, h4, h5, h6⟩

theorem tryCompact_core (s : St) (hc : Core s) :
    ∃ s', tryCompact s = some s' ∧ Core s' ∧ s'.requests = s.requests ∧
      s'.negCache = s.negCache ∧ (∀ q, view s' q = view s q) := by
  have hT : tryCompact s = if s.updates + 1 < COMPACTION_THRESHOLD
      then some { s with updates := s.updates + 1 }
      else match compactSst { s with updates := s.updates + 1 } with
        | none => none
        | some s₂ => some { s₂ with updates := 0 } := rfl
  by_cases h : s.updates + 1 < COMPACTION_THRESHOLD
  · refine ⟨{ s with updates := s.updates + 1 }, ?_, core_set_updates s _ hc, rfl, rfl,
      fun q => rfl⟩
    rw [hT, if_pos h]
  · obtain ⟨s₂, hcs, hc₂, hreq, _, hnc, _, _, hnewest⟩ :=
      compactSst_core { s with updates := s.updates + 1 } (core_set_updates s _ hc)
    have hreq' : s₂.requests = s.requests := hreq
    have hnc' : s₂.negCache = s.negCache := hnc
    have hnew' : ∀ k, newestSstEntry s₂ k
        = (newestSstEntry s k).bind fun e => if e.is_delete then none else some e := hnewest
    have hview : ∀ q, view s₂ q = view s q := by
      intro q
      rw [view, view, hreq']
      cases halq : alistLookup s.requests q with
      | some e => rfl
      | none =>
        show (newestSstEntry s₂ q).bind SstEntry.value
          = (newestSstEntry s q).bind SstEntry.value
        rw [hnew' q]
        cases hne : newestSstEntry s q with
        | none => rfl
        | some e =>
          cases e with
          | put k v => rfl
          | delete k => rfl
    refine ⟨{ s₂ with updates := 0 }, ?_, core_set_updates s₂ 0 hc₂, hreq', hnc', hview⟩
    rw [hT, if_neg h, hcs]

theorem mem_negInsert {nc : List Key} {k q : Key} (h : q ∈ negInsert nc k) :
    q = k ∨ q ∈ nc := by
  rw [negInsert] at h
  by_cases hk : k ∈ nc
  · rw [if_pos hk] at h
    exact Or.inr h
  · rw [if_neg hk] at h
    exact List.mem_cons.mp h

theorem negInsert_nodup {nc : List Key} {k : Key} (h : nc.Nodup) :
    (negInsert nc k).Nodup := by
  rw [negInsert]
  by_cases hk : k ∈ nc
  · rw [if_pos hk]
    exact h
  · rw [if_neg hk]
    exact List.nodup_cons.mpr ⟨hk, h⟩

/-- The shared body of `put` and `delete`: append to the WAL, insert
into the memtable, `try_flush`, `try_compact`.  Under the invariant this
always succeeds, preserves the core invariant, leaves the negative
cache untouched, and updates the read view at exactly the written key. -/
theorem writeStep_inv (s s₁ : St) (hI : EngineInv s) (k : Key) (e : SstEntry)
    (hek : e.key = k)
    (hreq : s₁.requests = alistInsert s.requests k e)
    (hmc : s₁.manifestCache = s.manifestCache)
    (hfs : s₁.fsys = s.fsys)
    (hnc : s₁.negCache = s.negCache) :
    ∃ s₃, tryCompact (tryFlush s₁) = some s₃ ∧ Core s₃ ∧
      s₃.negCache = s.negCache ∧
      (∀ q, view s₃ q = if q = k then e.value else view s q) := by
  have hc := hI.core
  have hc1 : Core s₁ := by
    refine ⟨?_, ?_, ?_, ?_, ?_, ?_⟩
    · rw [hreq]
      exact alistInsert_keys_nodup _ _ _ hc.reqNodup
    · rw [hreq]
      intro pe hpe
      rcases alistInsert_mem hpe with h | h
      · rw [h]
        exact hek
      · exact hc.reqKey pe h
    · rw [hmc]
      exact hc.cacheIds
    · rw [hfs]
      exact hc.fsysNodup
    · intro p
      rw [hfs, hmc]
      exact hc.fsysDom p
    · intro p hp
      rw [hfs]
      rw [hmc] at hp
      exact hc.files p hp
  have hnewest1 : ∀ q, newestSstEntry s₁ q = newestSstEntry s q := by
    intro q
    rw [newestSstEntry, newestSstEntry, hmc, hfs]
  have hview1 : ∀ q, view s₁ q = if q = k then e.value else view s q := by
    intro q
    rw [view, hreq]
    by_cases hq : q = k
    · subst hq
      rw [alistLookup_insert_self, if_pos rfl]
    · rw [alistLookup_insert_other _ _ _ _ hq, if_neg hq, view]
      cases halq : alistLookup s.requests q with
      | some f => rfl
      | none =>
        show (newestSstEntry s₁ q).bind SstEntry.value = _
        rw [hnewest1 q]
  obtain ⟨hc2, hnc2, _, hview2⟩ := tryFlush_core s₁ hc1
  obtain ⟨s₃, hTC, hc₃, _, hnc₃, hview₃⟩ := tryCompact_core (tryFlush s₁) hc2
  refine ⟨s₃, hTC, hc₃, ?_, ?_⟩
  · rw [hnc₃, hnc2, hnc]
  · intro q
    rw [hview₃ q, hview2 q, hview1 q]

theorem putOp_inv (s : St) (hI : EngineInv s) (k : Key) (v : Value) :
    EngineInv (putOp s k v) ∧
    ∀ q, view (putOp s k v) q = if q = k then some v else view s q := by
  obtain ⟨s₃, hTC, hc₃, hnc₃, hview₃⟩ := writeStep_inv s
    { s with
      wal := s.wal ++ [WalLine.record (walHash (Entry.put k v)) (Entry.put k v)]
      requests := alistInsert s.requests k (SstEntry.put k v) }
    hI k (SstEntry.put k v) rfl rfl rfl rfl rfl
  have hput : putOp s k v
      = (match tryCompact (tryFlush { s with
          wal := s.wal ++ [WalLine.record (walHash (Entry.put k v)) (Entry.put k v)]
          requests := alistInsert s.requests k (SstEntry.put k v) }) with
        | none => { tryFlush { s with
            wal := s.wal ++ [WalLine.record (walHash (Entry.put k v)) (Entry.put k v)]
            requests := alistInsert s.requests k (SstEntry.put k v) } with
            updates := (tryFlush { s with
              wal := s.wal ++ [WalLine.record (walHash (Entry.put k v)) (Entry.put k v)]
              requests := alistInsert s.requests k (SstEntry.put k v) }).updates + 1 }
        | some s₃ => { s₃ with negCache := negRemove s₃.negCache k }) := rfl
  rw [hput, hTC]
  have hviewf : ∀ q, view { s₃ with negCache := negRemove s₃.negCache k } q = view s₃ q :=
    fun q => rfl
  refine ⟨⟨core_set_negCache s₃ _ hc₃, ?_, ?_⟩, ?_⟩
  · show (negRemove s₃.negCache k).Nodup
    rw [negRemove, hnc₃]
    exact hI.negNodup.erase k
  · intro q hq
    have hq' : q ∈ s.negCache.erase k := by
      have hq'' : q ∈ s₃.negCache.erase k := hq
      rw [hnc₃] at hq''
      exact hq''
    obtain ⟨hqk, hqmem⟩ := (hI.negNodup.mem_erase_iff).mp hq'
    rw [hviewf q, hview₃ q, if_neg hqk]
    exact hI.negOk q hqmem
  · intro q
    rw [hviewf q, hview₃ q]
    rfl

theorem delOp_inv (s : St) (hI : EngineInv s) (k : Key) :
    EngineInv (delOp s k) ∧
    ∀ q, view (delOp s k) q = if q = k then none else view s q := by
  obtain ⟨s₃, hTC, hc₃, hnc₃, hview₃⟩ := writeStep_inv s
    { s with
      wal := s.wal ++ [WalLine.record (walHash (Entry.delete k)) (Entry.delete k)]
      requests := alistInsert s.requests k (SstEntry.delete k) }
    hI k (SstEntry.delete k) rfl rfl rfl rfl rfl
  have hdel : delOp s k
      = (match tryCompact (tryFlush { s with
          wal := s.wal ++ [WalLine.record (walHash (Entry.delete k)) (Entry.delete k)]
          requests := alistInsert s.requests k (SstEntry.delete k) }) with
        | none => { tryFlush { s with
            wal := s.wal ++ [WalLine.record (walHash (Entry.delete k)) (Entry.delete k)]
            requests := alistInsert s.requests k (SstEntry.delete k) } with
            updates := (tryFlush { s with
              wal := s.wal ++ [WalLine.record (walHash (Entry.delete k)) (Entry.delete k)]
              requests := alistInsert s.requests k (SstEntry.delete k) }).updates + 1 }
        | some s₃ => { s₃ with negCache := negInsert s₃.negCache k }) := rfl
  rw [hdel, hTC]
  have hviewf : ∀ q, view { s₃ with negCache := negInsert s₃.negCache k } q = view s₃ q :=
    fun q => rfl
  refine ⟨⟨core_set_negCache s₃ _ hc₃, ?_, ?_⟩, ?_⟩
  · show (negInsert s₃.negCache k).Nodup
    rw [hnc₃]
    exact negInsert_nodup hI.negNodup
  · intro q hq
    have hq' : q ∈ negInsert s.negCache k := by
      have hq'' : q ∈ negInsert s₃.negCache k := hq
      rw [hnc₃] at hq''
      exact hq''
    rw [hviewf q, hview₃ q]
    by_cases hqk : q = k
    · rw [if_pos hqk]
      rfl
    · rw [if_neg hqk]
      rcases mem_negInsert hq' with h | h
      · exact absurd h hqk
      · exact hI.negOk q h
  · intro q
    rw [hviewf q, hview₃ q]
    rfl

theorem getOp_inv (s : St) (hI : EngineInv s) (k : Key) :
    (getOp s k).1 = some (view s k) ∧ EngineInv (getOp s k).2 ∧
    ∀ q, view (getOp s k).2 q = view s q := by
  have hget : getOp s k = (match alistLookup s.requests k with
    | some e => (some e.value, s)
    | none =>
      if k ∈ s.negCache then (some none, s)
      else match searchSstGo s.fsys k s.manifestCache.reverse with
        | some none => (some none, { s with negCache := negInsert s.negCache k })
        | some (some v) => (some (some v), s)
        | none => (none, s)) := rfl
  cases halq : alistLookup s.requests k with
  | some e =>
    rw [hget, halq]
    refine ⟨?_, hI, fun q => rfl⟩
    rw [view, halq]
  | none =>
    by_cases hk : k ∈ s.negCache
    · rw [hget, halq, if_pos hk]
      exact ⟨by rw [hI.negOk k hk], hI, fun q => rfl⟩
    · rw [hget, halq, if_neg hk, searchSst_core s hI.core k]
      have hvk : view s k = (newestSstEntry s k).bind SstEntry.value := by
        rw [view, halq]
      cases hX : (newestSstEntry s k).bind SstEntry.value with
      | none =>
        rw [hX] at hvk
        refine ⟨by rw [hvk], ⟨core_set_negCache s _ hI.core, ?_, ?_⟩, fun q => rfl⟩
        · show (negInsert s.negCache k).Nodup
          exact negInsert_nodup hI.negNodup
        · intro q hq
          have hq' : q ∈ negInsert s.negCache k := hq
          have hvq : view { s with negCache := negInsert s.negCache k } q = view s q := rfl
          rw [hvq]
          rcases mem_negInsert hq' with h | h
          · rw [h]
            exact hvk
          · exact hI.negOk q h
      | some v =>
        rw [hX] at hvk
        exact ⟨by rw [hvk], hI, fun q => rfl⟩

/-- The value recorded by a request, as it affects reads of key `k`. -/
def opEffect (k : Key) (acc : Option Value) : Op → Option Value
  | .put q v => if k = q then some v else acc
  | .del q => if k = q then none else acc
  | .get _ => acc

/-- The last-write-wins account of a request sequence: the value of the
last `put` to `k`, `none` if the last write to `k` was a `delete` (or
if `k` was never written). -/
def writeFold (ops : List Op) (k : Key) : Option Value :=
  ops.foldl (opEffect k) none

theorem step_inv (s : St) (hI : EngineInv s) (op : Op) :
    EngineInv (step s op) ∧ ∀ q, view (step s op) q = opEffect q (view s q) op := by
  cases op with
  | put k v =>
    obtain ⟨h1, h2⟩ := putOp_inv s hI k v
    refine ⟨h1, ?_⟩
    intro q
    rw [step, opEffect]
    exact h2 q
  | del k =>
    obtain ⟨h1, h2⟩ := delOp_inv s hI k
    refine ⟨h1, ?_⟩
    intro q
    rw [step, opEffect]
    exact h2 q
  | get k =>
    obtain ⟨_, h1, h2⟩ := getOp_inv s hI k
    refine ⟨h1, ?_⟩
    intro q
    rw [step, opEffect]
    exact h2 q

theorem initSt_inv : EngineInv initSt := by
  refine ⟨⟨?_, ?_, ⟨[], rfl, List.chain'_nil⟩, ?_, ?_, ?_⟩, ?_, ?_⟩
  · exact List.nodup_nil
  · intro pe hpe
    cases hpe
  · exact List.nodup_nil
  · intro p
    simp [initSt, alistLookup]
  · intro p hp
    cases hp
  · exact List.nodup_nil
  · intro q hq
    cases hq

theorem view_initSt (q : Key) : view initSt q = none := rfl

theorem foldl_step_inv (ops : List Op) : ∀ (s : St), EngineInv s →
    EngineInv (ops.foldl step s) ∧
    ∀ k, view (ops.foldl step s) k = ops.foldl (opEffect k) (view s k) := by
  induction ops with
  | nil => exact fun s hI => ⟨hI, fun k => rfl⟩
  | cons op rest ih =>
    intro s hI
    obtain ⟨h1, h2⟩ := step_inv s hI op
    obtain ⟨h3, h4⟩ := ih (step s op) h1
    refine ⟨h3, ?_⟩
    intro k
    rw [List.foldl_cons, List.foldl_cons, h4 k, h2 k]

theorem runOps_inv (ops : List Op) :
    EngineInv (runOps ops) ∧ ∀ k, view (runOps ops) k = writeFold ops k := by
  obtain ⟨h1, h2⟩ := foldl_step_inv ops initSt initSt_inv
  refine ⟨h1, ?_⟩
  intro k
  rw [runOps, h2 k, view_initSt, writeFold]

theorem getOp_fst_core (s : St) (hc : Core s) (k : Key) :
    (getOp s k).1 = (match alistLookup s.requests k with
      | some e => some e.value
      | none => if k ∈ s.negCache then some none
          else some ((newestSstEntry s k).bind SstEntry.value)) := by
  have hget : getOp s k = (match alistLookup s.requests k with
    | some e => (some e.value, s)
    | none =>
      if k ∈ s.negCache then (some none, s)
      else match searchSstGo s.fsys k s.manifestCache.reverse with
        | some none => (some none, { s with negCache := negInsert s.negCache k })
        | some (some v) => (some (some v), s)
        | none => (none, s)) := rfl
  cases halq : alistLookup s.requests k with
  | some e => rw [hget, halq]
  | none =>
    by_cases hk : k ∈ s.negCache
    · rw [hget, halq]
      show (if k ∈ s.negCache then (some none, s) else _).1
        = if k ∈ s.negCache then some none else _
      rw [if_pos hk, if_pos hk]
    · rw [hget, halq]
      show (if k ∈ s.negCache then (some none, s) else _).1
        = if k ∈ s.negCache then some none else _
      rw [if_neg hk, if_neg hk, searchSst_core s hc k]
      cases hX : (newestSstEntry s k).bind SstEntry.value with
      | none => rfl
      | some v => rfl

theorem bind_value_compacted (o : Option SstEntry) :
    ((o.bind fun e => if e.is_delete then none else some e).bind SstEntry.value)
      = o.bind SstEntry.value := by
  cases o with
  | none => rfl
  | some e =>
    cases e with
    | put k v => rfl
    | delete k => rfl

/-! ## Claim theorems (second group) -/

/-- **C2.** Last-write-wins: after any finite sequence of requests on a
fresh engine (puts and deletes on `k` succeed, with arbitrary
interleaved operations on other keys — flushes and compactions firing
as the thresholds dictate), `get(k)` returns `Ok` of the value of the
last `put` to `k`, or `Ok(None)` if the last write to `k` was a
`delete` (or `k` was never written). -/
theorem c2_last_write_wins (ops : List Op) (k : Key) :
    (getOp (runOps ops) k).1 = some (writeFold ops k) := by
  obtain ⟨hI, hv⟩ := runOps_inv ops
  rw [(getOp_inv (runOps ops) hI k).1, hv k]

/-- **C3.** Compaction equivalence: from any state satisfying the core
invariant (in particular, `manifest_cache` lists the live SSTs
oldest-first with strictly increasing ids), `compact_sst` succeeds,
`get(k)` returns the same result before and after for every key `k`,
and no SST listed by the post-compaction manifest contains a `Delete`
entry. -/
theorem c3_compaction_equivalence (s : St) (hc : Core s) :
    ∃ s', compactSst s = some s' ∧
      (∀ k, (getOp s' k).1 = (getOp s k).1) ∧
      (∀ p ∈ s'.manifestCache, ∃ es, alistLookup s'.fsys p = some es ∧
        ∀ e ∈ es, e.is_delete = false) := by
  obtain ⟨s', hcs, hc', hreq, _, hnc, _, hnodel, hnewest⟩ := compactSst_core s hc
  refine ⟨s', hcs, ?_, hnodel⟩
  intro k
  rw [getOp_fst_core s' hc' k, getOp_fst_core s hc k, hreq, hnc]
  cases halq : alistLookup s.requests k with
  | some e => rfl
  | none =>
    by_cases hk : k ∈ s.negCache
    · rw [if_pos hk, if_pos hk]
    · rw [if_neg hk, if_neg hk, hnewest k, bind_value_compacted]

/-- A one-SST state used to exercise compaction: the manifest lists
`sst-1`, whose file holds a put and a tombstone. -/
def c3St : St :=
  ⟨[], [], [sstPath 1], [], 0,
    [(sstPath 1, [SstEntry.put "a" 1, SstEntry.delete "b"])], [sstPath 1]⟩

theorem c3_compaction_equivalence_witness :
    Core c3St ∧ ∃ s', compactSst c3St = some s' ∧
      (∀ k, (getOp s' k).1 = (getOp c3St k).1) ∧
      (∀ p ∈ s'.manifestCache, ∃ es, alistLookup s'.fsys p = some es ∧
        ∀ e ∈ es, e.is_delete = false) := by
  have hc : Core c3St := by
    refine ⟨by decide, ?_, ⟨[1], rfl, List.chain'_singleton 1⟩, by decide, ?_, ?_⟩
    · intro pe hpe
      cases hpe
    · intro p
      show (alistLookup [(sstPath 1, [SstEntry.put "a" 1, SstEntry.delete "b"])] p).isSome
        ↔ p ∈ [sstPath 1]
      rw [alistLookup]
      by_cases h : sstPath 1 = p
      · rw [if_pos h]
        simp [h]
      · rw [if_neg h]
        simp [alistLookup]
        exact fun hh => h hh.symm
    · intro p hp
      have hp1 : p = sstPath 1 := by simpa [c3St] using hp
      subst hp1
      refine ⟨[SstEntry.put "a" 1, SstEntry.delete "b"], ?_, ?_, by simp⟩
      · simp [alistLookup]
      · rw [KeysAscending]
        refine List.Pairwise.cons ?_ (by simp)
        intro b hb
        have hb' : b = SstEntry.delete "b" := by simpa using hb
        subst hb'
        decide
  exact ⟨hc, c3_compaction_equivalence c3St hc⟩

/-- **C9** fails as stated: on success `delete` inserts the key into
the negative cache (src/memtable.rs:112-123) at a moment when its own
memtable tombstone for that key exists, contradicting the claim that a
key is never inserted while a memtable entry — in particular a
tombstone — for it exists.  A single `delete("a")` on a fresh engine
leaves `"a"` both in the negative cache and tombstoned in the
memtable. -/
theorem c9_negcache_tombstone_counterexample :
    "a" ∈ (runOps [Op.del "a"]).negCache ∧
      alistLookup (runOps [Op.del "a"]).requests "a" = some (SstEntry.delete "a") := by
  constructor
  · decide
  · rfl

/-- **C9** (corrected).  The negative cache does not certify that no
memtable or SST entry existed at insertion time — `delete` inserts the
key while its own tombstone is pending.  The invariant the engine
actually maintains over all reachable states: every key in the negative
cache currently reads as absent, i.e. `get` returns `Ok(None)` for it
(any memtable or SST entry it shadows is a tombstone). -/
theorem c9_negcache_reads_none (ops : List Op) (k : Key)
    (h : k ∈ (runOps ops).negCache) :
    (getOp (runOps ops) k).1 = some none := by
  obtain ⟨hI, _⟩ := runOps_inv ops
  rw [(getOp_inv (runOps ops) hI k).1, hI.negOk k h]

theorem c9_negcache_reads_none_witness :
    "a" ∈ (runOps [Op.del "a"]).negCache ∧
      (getOp (runOps [Op.del "a"]) "a").1 = some none := by
  have h : "a" ∈ (runOps [Op.del "a"]).negCache := by decide
  exact ⟨h, c9_negcache_reads_none [Op.del "a"] "a" h⟩

/-- **C10.** Under the core invariant, every SST file written by a
flush (the single file at the freshly assigned path, for a non-empty
memtable as at the flush threshold) and every SST file written by a
compaction (every file the new manifest lists) is non-empty and has
strictly ascending keys — hence at most one entry per key. -/
theorem c10_sst_files_sorted_nonempty (s : St) (hc : Core s) (hne : s.requests ≠ []) :
    (∃ es, alistLookup (flush s).fsys (sstPath (nextSstId s.manifestCache)) = some es ∧
      es ≠ [] ∧ KeysAscending es) ∧
    (∃ s', compactSst s = some s' ∧ ∀ p ∈ s'.manifestCache,
      ∃ es, alistLookup s'.fsys p = some es ∧ es ≠ [] ∧ KeysAscending es) := by
  constructor
  · obtain ⟨hcf, -, -, -, -, -⟩ := flush_core s hc hne
    have hmem : sstPath (nextSstId s.manifestCache) ∈ (flush s).manifestCache := by
      show _ ∈ s.manifestCache ++ [sstPath (nextSstId s.manifestCache)]
      simp
    obtain ⟨es, hl, hasc, hne'⟩ := hcf.files _ hmem
    exact ⟨es, hl, hne', hasc⟩
  · obtain ⟨s', hcs, hc', -, -, -, -, -, -⟩ := compactSst_core s hc
    refine ⟨s', hcs, ?_⟩
    intro p hp
    obtain ⟨es, hl, hasc, hne'⟩ := hc'.files p hp
    exact ⟨es, hl, hne', hasc⟩

/-- A two-key memtable on an empty manifest, used to exercise the flush
and compaction file invariants. -/
def c10St : St :=
  ⟨[("b", SstEntry.put "b" 2), ("a", SstEntry.put "a" 1)], [], [], [], 0, [], []⟩

theorem c10_sst_files_sorted_nonempty_witness :
    (Core c10St ∧ c10St.requests ≠ []) ∧
    ((∃ es, alistLookup (flush c10St).fsys (sstPath (nextSstId c10St.manifestCache))
        = some es ∧ es ≠ [] ∧ KeysAscending es) ∧
      (∃ s', compactSst c10St = some s' ∧ ∀ p ∈ s'.manifestCache,
        ∃ es, alistLookup s'.fsys p = some es ∧ es ≠ [] ∧ KeysAscending es)) := by
  have hc : Core c10St := by
    refine ⟨by decide, ?_, ⟨[], rfl, List.chain'_nil⟩, by decide, ?_, ?_⟩
    · intro pe hpe
      rcases List.mem_cons.mp hpe with h | h
      · rw [h]
        rfl
      · rw [List.mem_singleton.mp h]
        rfl
    · intro p
      show (alistLookup [] p).isSome ↔ p ∈ ([] : List String)
      simp [alistLookup]
    · intro p hp
      cases hp
  have hne : c10St.requests ≠ [] := by decide
  exact ⟨⟨hc, hne⟩, c10_sst_files_sorted_nonempty c10St hc hne⟩
